import Mathlib

set_option allowUnsafeReducibility true

attribute [local semireducible] Rat.add Rat.mul Rat.inv Rat.sub Rat.div Rat.neg

/-!
Verification of the speaker-diarization post-processing engine
(`nemo/collections/asr/parts/utils/speaker_utils.py`).

The Python source is shallowly embedded: Python floats are modelled as exact
rationals (`ℚ`), possibly-NaN tensor entries as `Option ℚ` (`none` = NaN),
fallible functions return `Except PyErr`, and every in-place tensor mutation
is turned into explicit functional state passing.  Each definition mirrors
one function (or a clearly delimited slice of one function) of the source.
-/

/-- The kind of Python exception an embedded function raises. -/
inductive PyErr
  | nameError
  | indexError
  | valueError
  | runtimeError
  | attributeError
  | notImplementedError
deriving DecidableEq, Repr

/-- `true` iff an `Except` value is `.ok`. -/
def exceptIsOk {ε α : Type _} : Except ε α → Bool
  | .ok _ => true
  | .error _ => false

/-- `true` iff an `Except` value is `.error`. -/
def exceptIsError {ε α : Type _} (r : Except ε α) : Bool := !exceptIsOk r

/-!
### Rounding helpers (`fl2int`, `int2fl`, `torch.round`)

`torch.round` rounds half to even (bankers rounding); on exact rationals this
is `roundHalfEven`.  `int2fl x d` in the source is
`torch.round(x / 10**d, decimals=d)`; since `x / 10**d` is already an exact
multiple of `10^(-d)` in the rational model, the rounding is the identity and
the embedding uses exact division.
-/

/-- Round a rational to the nearest integer, ties to the even integer
(the rounding mode of `torch.round`). -/
def roundHalfEven (q : ℚ) : ℤ :=
  let f : ℤ := ⌊q⌋
  let r : ℚ := q - (f : ℚ)
  if r < 1/2 then f
  else if 1/2 < r then f + 1
  else if f % 2 = 0 then f else f + 1

/-- `fl2int` of the source: `torch.round(x * 10**decimals)` as an integer. -/
def fl2int (x : ℚ) (decimals : ℕ) : ℤ := roundHalfEven (x * 10 ^ decimals)

/-- `int2fl` of the source (exact on its reachable inputs, see above). -/
def int2fl (x : ℤ) (decimals : ℕ) : ℚ := (x : ℚ) / 10 ^ decimals

/-- `torch.round(q, decimals=d)` on an exact rational. -/
def roundDec (q : ℚ) (d : ℕ) : ℚ := (roundHalfEven (q * 10 ^ d) : ℚ) / 10 ^ d

/-!
### Interval algebra (`is_overlap`, `get_overlap_range`, `get_sub_range_list`,
`merge_int_intervals`, `merge_float_intervals`)
-/

/-- `is_overlap`: `end1 > start2 and end2 > start1`. -/
def is_overlap (rangeA rangeB : ℚ × ℚ) : Bool :=
  rangeB.1 < rangeA.2 && rangeA.1 < rangeB.2

/-- `get_overlap_range` (the source asserts `is_overlap`; all call sites in
the embedded code guard the call with `is_overlap`). -/
def get_overlap_range (rangeA rangeB : ℚ × ℚ) : ℚ × ℚ :=
  (max rangeA.1 rangeB.1, min rangeA.2 rangeB.2)

/-- `get_sub_range_list`.  The Python `target_range` is a list that is either
empty or a start/end pair; it is modelled as an `Option` pair. -/
def get_sub_range_list (target_range : Option (ℚ × ℚ)) (source_range_list : List (ℚ × ℚ)) :
    List (ℚ × ℚ) :=
  match target_range with
  | none => []
  | some t => (source_range_list.filter (fun s => is_overlap s t)).map
      (fun s => get_overlap_range s t)

/-- The merging sweep of `merge_int_intervals` (the loop over `intervals[1:]`
carrying the current `start`/`end`; the quirky `end = max(end2, end)` of the
`else` branch is kept verbatim). -/
def sweepGo : ℤ → ℤ → List (ℤ × ℤ) → List (ℤ × ℤ)
  | s, e, [] => [(s, e)]
  | s, e, (s2, e2) :: rest =>
    if s2 ≤ e then sweepGo s (max e2 e) rest
    else (s, e) :: sweepGo s2 (max e2 e) rest

/-- The first column of `torch.sort(interval_tensor, dim=0)`: the sorted
start values. -/
def sortedStarts (R : List (ℤ × ℤ)) : List ℤ :=
  List.insertionSort (· ≤ ·) (R.map Prod.fst)

/-- The second column of `torch.sort(interval_tensor, dim=0)`: the sorted
end values. -/
def sortedEnds (R : List (ℤ × ℤ)) : List ℤ :=
  List.insertionSort (· ≤ ·) (R.map Prod.snd)

/-- The row list of `torch.sort(interval_tensor, dim=0)`: sorted starts
re-paired with sorted ends. -/
def zipSorted (R : List (ℤ × ℤ)) : List (ℤ × ℤ) :=
  (sortedStarts R).zip (sortedEnds R)

/-- `merge_int_intervals`.  `torch.sort(tensor, dim=0)` sorts the starts and
the ends independently; the embedding sorts each column and re-pairs them. -/
def merge_int_intervals (intervals_in : List (ℤ × ℤ)) : List (ℤ × ℤ) :=
  match intervals_in with
  | [] => []
  | [x] => [x]
  | _ :: _ :: _ =>
    match zipSorted intervals_in with
    | [] => []
    | (s0, e0) :: rest => sweepGo s0 e0 rest

/-- The integer-scaling loop of `merge_float_intervals`: each float bound is
scaled by `10^decimals` and rounded, `margin` is added to the start, and
degenerate rows (`stt >= end`) are dropped. -/
def rangesInt (ranges : List (ℚ × ℚ)) (decimals : ℕ) (margin : ℕ) : List (ℤ × ℤ) :=
  ranges.filterMap (fun x =>
    let stt : ℤ := fl2int x.1 decimals + margin
    let e : ℤ := fl2int x.2 decimals
    if stt < e then some (stt, e) else none)

/-- `merge_float_intervals`. -/
def merge_float_intervals (ranges : List (ℚ × ℚ)) (decimals : ℕ) (margin : ℕ) :
    List (ℚ × ℚ) :=
  (merge_int_intervals (rangesInt ranges decimals margin)).map
    (fun x => (int2fl (x.1 - margin) decimals, int2fl x.2 decimals))

/-- Number of output intervals of `out` that cover the point `p`
(the coverage count used by the merge-correctness claim). -/
def coveredCount (p : ℚ) (out : List (ℚ × ℚ)) : ℕ :=
  (out.filter (fun r => r.1 ≤ p && p ≤ r.2)).length

/-!
### Segment layout (`get_subsegments`)
-/

/-- `get_subsegments`.  Faithful points: the `slices` formula
`int(np.ceil((duration-window)/shift) + 1)`, the `slices == 1` early path,
`torch.arange(offset, slice_end, shift)[:slices]`, the in-place clip of the
last duration, `torch.round(dur_col, decimals=decimals)`, and the final
`dur_col[k] >= min_subsegment_duration` filter.  Error cases: `shift == 0`
raises at the `np.ceil` division; a negative `shift` raises inside
`torch.arange`; `torch.ones(slices)` raises for negative `slices`;
`dur_col[-1]` on the empty tensor (`slices == 0`) raises `IndexError`; and
`torch.stack` raises when `start_col` is shorter than `dur_col`. -/
def get_subsegments (offset window shift duration min_subsegment_duration : ℚ)
    (decimals : ℕ) : Except PyErr (List (ℚ × ℚ)) :=
  let slice_end := offset + duration
  if min_subsegment_duration ≤ duration ∧ duration < shift then
    if min_subsegment_duration ≤ min duration window then
      .ok [(offset, min duration window)]
    else .ok []
  else if shift = 0 then .error .valueError
  else
    let slices : ℤ := ⌈(duration - window) / shift⌉ + 1
    if slices = 1 then
      if min_subsegment_duration ≤ min duration window then
        .ok [(offset, min duration window)]
      else .ok []
    else if shift < 0 then .error .runtimeError
    else if slices < 0 then .error .runtimeError
    else if slices = 0 then .error .indexError
    else
      let ns := slices.toNat
      let arange_len : ℕ := (⌈duration / shift⌉).toNat
      if arange_len < ns then .error .runtimeError
      else
        let starts := (List.range ns).map (fun k => offset + (k : ℚ) * shift)
        let last_start := offset + ((ns - 1 : ℕ) : ℚ) * shift
        let durs := (List.range ns).map (fun k =>
          if k = ns - 1 then roundDec (min (slice_end - last_start) window) decimals
          else roundDec window decimals)
        .ok ((starts.zip durs).filter (fun r => min_subsegment_duration ≤ r.2))

/-!
### Online segmentor (`get_new_cursor_for_update`,
`get_speech_labels_for_update`, `OnlineSegmentor.run_online_segmentation`)
-/

/-- The backwards scan of `get_new_cursor_for_update` (the `while` loop over
`segment_range_ts[-(count+1)]`; the input list is passed reversed).  When the
scan walks past the front of the list, the Python negative index is out of
range and the loop raises `IndexError`. -/
def cursorGo (frame_start : ℚ) : ℚ → ℕ → List (ℚ × ℚ) → Except PyErr (ℚ × ℕ)
  | _, _, [] => .error .indexError
  | acc, count, r :: rest =>
    if frame_start ≤ r.2 then cursorGo frame_start r.1 (count + 1) rest
    else .ok (acc, count)

/-- `get_new_cursor_for_update`: returns `(cursor_for_old_segments,
cursor_index)`. -/
def get_new_cursor_for_update (frame_start : ℚ) (segment_range_ts : List (ℚ × ℚ)) :
    Except PyErr (ℚ × ℕ) :=
  if segment_range_ts.isEmpty then .ok (frame_start, segment_range_ts.length)
  else
    (cursorGo frame_start frame_start 0 segment_range_ts.reverse).map
      (fun p => (p.1, segment_range_ts.length - p.2))

/-- `get_speech_labels_for_update` with the parameter order of its
definition: `(frame_start, buffer_end, vad_timestamps,
cumulative_speech_labels, cursor_for_old_segments)`.  Returns
`(speech_label_for_new_segments, cumulative_speech_labels)`.  Both merges use
`margin=0` as in the source. -/
def get_speech_labels_for_update (frame_start buffer_end : ℚ)
    (vad_timestamps cumulative_speech_labels : List (ℚ × ℚ))
    (cursor_for_old_segments : ℚ) : List (ℚ × ℚ) × List (ℚ × ℚ) :=
  let update_overlap_range : Option (ℚ × ℚ) :=
    if cursor_for_old_segments < frame_start then
      some (cursor_for_old_segments, frame_start)
    else none
  let new_incoming_speech_labels :=
    get_sub_range_list (some (frame_start, buffer_end)) vad_timestamps
  let update_overlap_speech_labels :=
    get_sub_range_list update_overlap_range cumulative_speech_labels
  (merge_float_intervals (update_overlap_speech_labels ++ new_incoming_speech_labels) 5 0,
   merge_float_intervals (cumulative_speech_labels ++ new_incoming_speech_labels) 5 0)

/-- The cumulative-VAD update performed by the non-first branch of
`OnlineSegmentor.run_online_segmentation`.  NOTE (verbatim from the source
call at lines 2523-2529): the call passes `self.cumulative_speech_labels` as
the THIRD positional argument and `vad_timestamps` as the FOURTH, i.e. the
cumulative labels land in the callee's `vad_timestamps` parameter and the new
VAD in its `cumulative_speech_labels` parameter. -/
def run_online_segmentation_cumulative (frame_start buffer_end : ℚ)
    (cumulative_speech_labels vad_timestamps : List (ℚ × ℚ))
    (segment_range_ts : List (ℚ × ℚ)) : Except PyErr (List (ℚ × ℚ)) :=
  (get_new_cursor_for_update frame_start segment_range_ts).map (fun c =>
    (get_speech_labels_for_update frame_start buffer_end
      cumulative_speech_labels vad_timestamps c.1).2)

/-!
### Clustering driver (`perform_clustering_embs`,
`perform_clustering_session_embs`): the base-scale-index computation
-/

/-- The evolution of `base_scale_idx` over the session loop of
`perform_clustering_embs` (lines 837-864): the variable is initialised once
before the loop and the long-form decrement
`base_scale_idx = max(0, base_scale_idx - 1)` persists into later
iterations.  Input: the per-session fine-scale segment counts
(`scale_map.shape[1]`), in loop order; output: the base scale index used by
each session. -/
def baseScaleGo (long_audio_thres : ℤ) : ℤ → List ℤ → List ℤ
  | _, [] => []
  | b, t :: rest =>
    let b2 := if long_audio_thres < t then max 0 (b - 1) else b
    b2 :: baseScaleGo long_audio_thres b2 rest

/-- Base scale index used for each session by `perform_clustering_embs`. -/
def perform_clustering_embs_base_scale_indices (clustering_scale_index : ℤ)
    (long_audio_thres : ℤ) (session_fine_counts : List ℤ) : List ℤ :=
  baseScaleGo long_audio_thres clustering_scale_index session_fine_counts

/-- Base scale index computed by the per-session function
`perform_clustering_session_embs` (lines 720-729), which re-reads
`clustering_params.clustering_scale_index` on every call. -/
def perform_clustering_session_embs_base_scale_idx (clustering_scale_index : ℤ)
    (long_audio_thres : ℤ) (fine_count : ℤ) : ℤ :=
  if long_audio_thres < fine_count then max 0 (clustering_scale_index - 1)
  else clustering_scale_index

/-!
### MSDD post-processing (`generate_speaker_timestamps`,
`get_top_k_for_each_row`, `mixdown_msdd_preds`)

Tensor entries are `Option ℚ`; `none` models IEEE NaN.  Comparisons with NaN
are false, arithmetic propagates NaN, and `torch.topk`/`torch.sort` treat NaN
as greater than every number.  `vdiv` returns `none` when the denominator is
zero; in the source the corresponding float result is `inf` or `nan`, and
every use of such a value in `generate_speaker_timestamps` is a `<`
comparison, where `inf`, `nan` and the embedding's `none` all yield `False`.
`vzero0` models elementwise multiplication by a 0/1 mask entry of value `0`
(`0.0 * nan = nan` in IEEE arithmetic).
-/

/-- `v > q` for a possibly-NaN value (false on NaN). -/
def vgtQ : Option ℚ → ℚ → Bool
  | none, _ => false
  | some x, q => q < x

/-- `v < q` for a possibly-NaN value (false on NaN). -/
def vltQ : Option ℚ → ℚ → Bool
  | none, _ => false
  | some x, q => x < q

/-- `v ≥ q` for a possibly-NaN value (false on NaN). -/
def vgeQ : Option ℚ → ℚ → Bool
  | none, _ => false
  | some x, q => q ≤ x

/-- NaN-propagating addition. -/
def vadd : Option ℚ → Option ℚ → Option ℚ
  | some a, some b => some (a + b)
  | _, _ => none

/-- NaN-propagating sum (`tensor.sum()`). -/
def vsum (l : List (Option ℚ)) : Option ℚ := l.foldr vadd (some 0)

/-- NaN-propagating division; division by zero yields `none` (see the module
comment above). -/
def vdiv : Option ℚ → Option ℚ → Option ℚ
  | some a, some b => if b = 0 then none else some (a / b)
  | _, _ => none

/-- Multiplication of a value by the mask constant `0` (`0 * NaN = NaN`). -/
def vzero0 : Option ℚ → Option ℚ
  | none => none
  | some _ => some 0

/-- Truth value of a numpy array entry (`np.logical_or`): nonzero numbers and
NaN are truthy. -/
def vtruthy : Option ℚ → Bool
  | none => true
  | some q => q ≠ 0

/-- NaN-propagating binary maximum (`torch.max` propagates NaN). -/
def vmax : Option ℚ → Option ℚ → Option ℚ
  | some a, some b => some (max a b)
  | _, _ => none

/-- Strict "greater" of the `torch.topk`/`torch.sort` value order, in which
NaN is greater than every number. -/
def vgtStrict : Option ℚ → Option ℚ → Bool
  | none, none => false
  | none, some _ => true
  | some _, none => false
  | some a, some b => b < a

/-- Index `j` comes before index `m` in the descending `torch.topk` order of
row `r`: strictly greater value, or equal value and smaller index (stable
tie-breaking). -/
def beats (r : ℕ → Option ℚ) (j m : ℕ) : Bool :=
  vgtStrict (r j) (r m) ||
    (!vgtStrict (r j) (r m) && !vgtStrict (r m) (r j) && decide (j < m))

/-- Rank of column `m` in the descending order of row `r` (rank 0 = the top-1
position).  `torch.topk` keeps exactly the columns of rank `< k`. -/
def rankIn (r : ℕ → Option ℚ) (M m : ℕ) : ℕ :=
  ((List.range M).filter (fun j => beats r j m)).length

/-- The column holding rank `j` of row `r`. -/
def idxOfRank (r : ℕ → Option ℚ) (M j : ℕ) : ℕ :=
  ((List.range M).filter (fun m => rankIn r M m = j)).headD 0

/-- Parameters of `generate_speaker_timestamps` read from `params`. -/
structure STParams where
  infer_overlap : Bool
  mask_spks_with_clus : Bool
  overlap_infer_spk_limit : ℚ
  ts_vad_threshold : ℚ

/-- `vad_mask = clus_labels > -1` at frame `t`. -/
def stVad (labels : ℕ → ℤ) (t : ℕ) : Bool := -1 < labels t

/-- Column `m` occurs among the non-negative cluster labels
(`np.unique(clus_labels[clus_labels >= 0])` membership). -/
def stActiveCol (labels : ℕ → ℤ) (T m : ℕ) : Bool :=
  (List.range T).any (fun t => labels t == (m : ℤ))

/-- `active_spk_inds.shape[0]`: the number of distinct non-negative cluster
labels. -/
def stActiveCount (labels : ℕ → ℤ) (T : ℕ) : ℕ :=
  (((List.range T).map labels).filter (fun z => 0 ≤ z)).dedup.length

/-- `spk_time_each = msdd_preds.sum(dim=0) / msdd_preds.sum()`, computed from
the predictions BEFORE the clustering-column mask is applied in place. -/
def stSpkTime (preds : ℕ → ℕ → Option ℚ) (T M m : ℕ) : Option ℚ :=
  vdiv (vsum ((List.range T).map (fun t => preds t m)))
    (vsum ((List.range T).map (fun t => vsum ((List.range M).map (preds t)))))

/-- The predictions after the in-place column mask
`msdd_preds[:, mask_ch_inds] = 0.0` (columns not among the active cluster
labels are zeroed) when `mask_spks_with_clus` is set. -/
def stMaskedPreds (labels : ℕ → ℤ) (preds : ℕ → ℕ → Option ℚ) (T : ℕ)
    (mask : Bool) : ℕ → ℕ → Option ℚ :=
  fun t m => if mask && !stActiveCol labels T m then some 0 else preds t m

/-- Some frame carries a non-negative cluster label `≥ M`; both
`mask_ch_inds[active_spk_inds] = False` and
`clustering_assign_mat[vad_mask, clus_labels[vad_mask]] = 1` then raise
`IndexError`. -/
def stBadIdx (labels : ℕ → ℤ) (T M : ℕ) : Bool :=
  (List.range T).any (fun t => decide (-1 < labels t) && decide ((M : ℤ) ≤ labels t))

/-- `get_top_k_for_each_row`'s masked matrix: the top-`k` entries of each row
keep their value, all others are multiplied by the mask value `0`. -/
def stTopKMat (p2 : ℕ → ℕ → Option ℚ) (M k : ℕ) : ℕ → ℕ → Option ℚ :=
  fun t m => if rankIn (p2 t) M m < k then p2 t m else vzero0 (p2 t m)

/-- `get_top_k_for_each_row`'s `logit_gap`: second-highest over highest value
per row for `k > 1`, and `torch.zeros_like` for `k ≤ 1`. -/
def stGap (p2 : ℕ → ℕ → Option ℚ) (M k : ℕ) : ℕ → Option ℚ :=
  fun t =>
    if 1 < k then
      vdiv (p2 t (idxOfRank (p2 t) M 1)) (p2 t (idxOfRank (p2 t) M 0))
    else some 0

/-- Number of entries `> 0` in a row (`(row > 0.0).sum()`). -/
def stCountPos (row : ℕ → Option ℚ) (M : ℕ) : ℕ :=
  ((List.range M).filter (fun m => vgtQ (row m) 0)).length

/-- The sanity check `torch.all((mat > 0).sum(axis=1) == k)`. -/
def stRowsOk (mat : ℕ → ℕ → Option ℚ) (T M k : ℕ) : Bool :=
  (List.range T).all (fun t => stCountPos (mat t) M == k)

/-- `torch.max(msdd_preds, dim=1)[0]` for one row (NaN propagating; the
empty-row case is unreachable in `generate_speaker_timestamps` because
`1 ≤ k ≤ M` holds whenever the maximum is taken). -/
def stRowMax (row : ℕ → Option ℚ) (M : ℕ) : Option ℚ :=
  match (List.range M).map row with
  | [] => none
  | x :: xs => xs.foldl vmax x

/-- The effective `max_overlap_count` (`k`) computed at lines 2035-2038 when
`mask_spks_with_clus` is set (so that `active_spk_inds` is bound). -/
def stKOf (labels : ℕ → ℤ) (T max_overlap_count : ℕ) (prm : STParams) : ℕ :=
  if prm.infer_overlap then min (stActiveCount labels T) max_overlap_count else 1

/-- `generate_speaker_timestamps` (lines 1973-2059), single-channel (`[T, M]`)
path, returning the speaker-assignment matrix as a Boolean entry function
(the source returns the same 0/1 matrix as an int array).  Faithfully kept:
the order of the guards, the dead thresholded matrix `msdd_preds_masked`
(computed at lines 2044-2046 and overwritten at line 2053) is omitted, and
`speaker_assign_mat = np.logical_or(msdd_preds_masked_one,
msdd_preds_masked_ovl)` reads the VALUES of the gap-masked top-k matrix, not
a thresholded version of it. -/
def generate_speaker_timestamps (labels : ℕ → ℤ) (preds : ℕ → ℕ → Option ℚ)
    (T M : ℕ) (threshold : ℚ) (max_overlap_count : ℕ) (prm : STParams) :
    Except PyErr (ℕ → ℕ → Bool) :=
  let spk_time := stSpkTime preds T M
  let p2 := stMaskedPreds labels preds T prm.mask_spks_with_clus
  if stBadIdx labels T M then .error .indexError
  else
    match (if !prm.infer_overlap then Except.ok 1
           else if prm.mask_spks_with_clus then
             Except.ok (min (stActiveCount labels T) max_overlap_count)
           else Except.error PyErr.nameError : Except PyErr ℕ) with
    | .error e => .error e
    | .ok k =>
      if M < k then .error .runtimeError
      else if k = 0 then .error .indexError
      else
        let topk := stTopKMat p2 M k
        let gap := stGap p2 M k
        let top1 := stTopKMat p2 M 1
        if !stRowsOk topk T M k then .error .valueError
        else
          let topk2 : ℕ → ℕ → Option ℚ := fun t m =>
            if vltQ (spk_time m) prm.overlap_infer_spk_limit then some 0 else topk t m
          let topk3 : ℕ → ℕ → Option ℚ := fun t m =>
            if vltQ (gap t) threshold then some 0 else topk2 t m
          let one : ℕ → ℕ → Bool := fun t m => vgtQ (top1 t m) 0
          if !stRowsOk top1 T M 1 then .error .valueError
          else
            let a0 : ℕ → ℕ → Bool := fun t m => one t m || vtruthy (topk3 t m)
            if prm.ts_vad_threshold ≤ 0 then .ok (fun t m => a0 t m && stVad labels t)
            else .ok (fun t m => a0 t m && !vltQ (stRowMax (p2 t) M) prm.ts_vad_threshold)

/-- Entry `(t, m)` of a returned speaker-assignment matrix. -/
def entryOf (r : Except PyErr (ℕ → ℕ → Bool)) (t m : ℕ) : Bool :=
  match r with
  | .ok f => f t m
  | .error _ => false

/-- The second positional argument of `generate_speaker_timestamps` as passed
by `mixdown_msdd_preds`: a tensor, or a plain Python float (the `offset`). -/
inductive PredsArg
  | scalar (x : ℚ)
  | mat (preds : ℕ → ℕ → Option ℚ) (T M : ℕ)

/-- `generate_speaker_timestamps` applied to an arbitrary second positional
argument: on a Python float, `len(msdd_preds.shape)` raises
`AttributeError` (`'float' object has no attribute 'shape'`). -/
def generate_speaker_timestamps_arg (labels : ℕ → ℤ) (arg : PredsArg)
    (threshold : ℚ) (max_overlap_count : ℕ) (prm : STParams) :
    Except PyErr (ℕ → ℕ → Bool) :=
  match arg with
  | .scalar _ => .error .attributeError
  | .mat p T M => generate_speaker_timestamps labels p T M threshold max_overlap_count prm

/-- The `msdd_preds` argument of `mixdown_msdd_preds`: `[T, M]` or
`[T, M, C]`. -/
inductive MsddTensor
  | mat2 (preds : ℕ → ℕ → Option ℚ) (T M : ℕ)
  | mat3 (preds : ℕ → ℕ → ℕ → Option ℚ) (T M C : ℕ)

/-- The value of `params['mc_late_fusion_mode']` as dispatched by
`mixdown_msdd_preds`: `post_mean`, `post_max`, `pre_mean`, a string starting
with `pre` other than `pre_mean` (for which `msdd_preds_mixed` is unbound,
a `NameError`), or anything else (`NotImplementedError`). -/
inductive FusionMode
  | postMean
  | postMax
  | preMean
  | preOther
  | otherMode

/-- 0/1 value of a Boolean activation entry. -/
def boolToQ (b : Bool) : ℚ := if b then 1 else 0

/-- `mixdown_msdd_preds` (lines 2281-2300) up to and including the
computation of `speaker_assign_mat` (the subsequent TS-VAD smoothing /
interval emission of lines 2302-2311 is outside this claim set).  NOTE
(verbatim from line 2300): in the single-channel case the source calls
`generate_speaker_timestamps(clus_labels, offset, threshold, **params)`,
passing the float `offset` where the predictions tensor is expected. -/
def mixdown_msdd_preds_assign (labels : ℕ → ℤ) (msdd_preds : MsddTensor)
    (offset : ℚ) (threshold : ℚ) (max_overlap_count : ℕ) (prm : STParams)
    (mc_late_fusion_mode : FusionMode) : Except PyErr (ℕ → ℕ → ℚ) :=
  match msdd_preds with
  | .mat3 p T M C =>
    match mc_late_fusion_mode with
    | .postMean =>
      ((List.range C).mapM (fun c =>
        generate_speaker_timestamps labels (fun t m => p t m c) T M threshold
          max_overlap_count prm)).map
        (fun rs => fun t m => (rs.map (fun A => boolToQ (A t m))).sum / (C : ℚ))
    | .postMax =>
      ((List.range C).mapM (fun c =>
        generate_speaker_timestamps labels (fun t m => p t m c) T M threshold
          max_overlap_count prm)).map
        (fun rs => fun t m => (rs.map (fun A => boolToQ (A t m))).foldr max 0)
    | .preMean =>
      (generate_speaker_timestamps labels
        (fun t m => vdiv (vsum ((List.range C).map (fun c => p t m c))) (some (C : ℚ)))
        T M threshold max_overlap_count prm).map
        (fun A => fun t m => boolToQ (A t m))
    | .preOther => .error .nameError
    | .otherMode => .error .notImplementedError
  | .mat2 _ _ _ =>
    (generate_speaker_timestamps_arg labels (.scalar offset) threshold
      max_overlap_count prm).map (fun A => fun t m => boolToQ (A t m))

/-!
### Claim-side formulas (stated from the specification's words, for
comparison with the embedded code)
-/

/-- Claim-side `A_top1[t,m] = 1 iff m is the top-1 activation of row t` (row
of the clustering-masked predictions). -/
def claimTop1 (p2 : ℕ → ℕ → Option ℚ) (M t m : ℕ) : Bool :=
  rankIn (p2 t) M m == 0

/-- The column-masked top-k matrix (`TopK` of the claim: top-k per row, then
columns whose activity fraction is below `overlap_infer_spk_limit` zeroed),
with `mask_spks_with_clus` enabled. -/
def stTopK2Of (labels : ℕ → ℤ) (preds : ℕ → ℕ → Option ℚ) (T M k : ℕ)
    (limit : ℚ) : ℕ → ℕ → Option ℚ :=
  fun t m =>
    if vltQ (stSpkTime preds T M m) limit then some 0
    else stTopKMat (stMaskedPreds labels preds T true) M k t m

/-- The per-row `logit_gap` with `mask_spks_with_clus` enabled. -/
def stGapOf (labels : ℕ → ℤ) (preds : ℕ → ℕ → Option ℚ) (T M k : ℕ) :
    ℕ → Option ℚ :=
  stGap (stMaskedPreds labels preds T true) M k

/-- Claim-side `A_ovl[t,m] = 1 iff TopK[t,m] ≥ θ ∧ logit_gap[t] ≥ θ`, as the
claim states it. -/
def claimOvl (labels : ℕ → ℤ) (preds : ℕ → ℕ → Option ℚ) (T M k : ℕ)
    (limit θ : ℚ) (t m : ℕ) : Bool :=
  vgeQ (stTopK2Of labels preds T M k limit t m) θ && vgeQ (stGapOf labels preds T M k t) θ

/-- Amended claim-side `A_ovl[t,m] = 1 iff TopK[t,m] > 0 ∧ logit_gap[t] ≥ θ`
(the thresholded comparison of line 2044 only feeds the dead intermediate
`msdd_preds_masked`). -/
def claimOvlAmended (labels : ℕ → ℤ) (preds : ℕ → ℕ → Option ℚ) (T M k : ℕ)
    (limit θ : ℚ) (t m : ℕ) : Bool :=
  vgtQ (stTopK2Of labels preds T M k limit t m) 0 && vgeQ (stGapOf labels preds T M k t) θ

/-!
### Concrete inputs used by the counterexamples and witnesses
-/

/-- Cluster labels `[0, 1]`. -/
def c1lab : ℕ → ℤ := fun t => ([0, 1].getD t 0 : ℤ)

/-- Predictions `[[0.9, 0.48], [0.9, 0.48]]`. -/
def c1preds : ℕ → ℕ → Option ℚ := fun t m =>
  ([[some (9/10), some (12/25)], [some (9/10), some (12/25)]].getD t []).getD m (some 0)

/-- `infer_overlap=True, mask_spks_with_clus=True, overlap_infer_spk_limit=0,
ts_vad_threshold=0`. -/
def c1prm : STParams := ⟨true, true, 0, 0⟩

/-- `infer_overlap=True, mask_spks_with_clus=False`. -/
def c10prm : STParams := ⟨true, false, 0, 0⟩

/-- The activation matrix `generate_speaker_timestamps` returns on the
`c1lab`/`c1preds` input with `threshold = 0.5` and `c1prm`. -/
def c1A : ℕ → ℕ → Bool :=
  match generate_speaker_timestamps c1lab c1preds 2 2 (1/2) 2 c1prm with
  | .ok A => A
  | .error _ => fun _ _ => false

/-- Cluster labels `[0]`. -/
def c8lab : ℕ → ℤ := fun t => ([0].getD t 0 : ℤ)

/-- Predictions `[[0.9, nan]]`: a NaN confined to column 1, which is not
among the cluster labels. -/
def c8preds : ℕ → ℕ → Option ℚ := fun t m =>
  ([[some (9/10), none]].getD t []).getD m (some 0)

/-- Predictions `[[nan, 0.9]]`: a NaN in column 0, which is an active
cluster label. -/
def c8wpreds : ℕ → ℕ → Option ℚ := fun t m =>
  ([[none, some (9/10)]].getD t []).getD m (some 0)

/-- `infer_overlap=True, mask_spks_with_clus=True,
overlap_infer_spk_limit=0.3, ts_vad_threshold=0`. -/
def c8prm : STParams := ⟨true, true, 3/10, 0⟩

/-!
### Claim theorems
-/

/-- C2 (code_bug evidence): in the single-channel (`[T, M]`) case,
`mixdown_msdd_preds` passes the float `offset` where the predictions tensor
is expected (line 2300), so `generate_speaker_timestamps` raises
`AttributeError` at `len(msdd_preds.shape)` instead of post-processing
`msdd_preds`, for every input. -/
theorem mixdown_single_channel_raises_attribute_error
    (labels : ℕ → ℤ) (preds : ℕ → ℕ → Option ℚ) (T M : ℕ) (offset θ : ℚ)
    (moc : ℕ) (prm : STParams) (mode : FusionMode) :
    mixdown_msdd_preds_assign labels (.mat2 preds T M) offset θ moc prm mode =
      .error .attributeError := rfl

/-- C3 (code_bug evidence): in `perform_clustering_embs` the long-form
decrement of `base_scale_idx` persists across loop iterations: with
`clustering_scale_index = 1`, `long_audio_thres = 100000` and session
fine-scale counts `[150000, 50]`, the second (short) session is clustered at
base scale index 0, while the per-session function
`perform_clustering_session_embs` gives it index 1. -/
theorem perform_clustering_embs_base_scale_state_leak :
    perform_clustering_embs_base_scale_indices 1 100000 [150000, 50] = [0, 0] ∧
    perform_clustering_session_embs_base_scale_idx 1 100000 50 = 1 := by decide

/-- C4 (code_bug evidence): `run_online_segmentation` passes
`self.cumulative_speech_labels` and `vad_timestamps` to
`get_speech_labels_for_update` in swapped positions.  With prior cumulative
labels `[[0, 1]]`, new VAD `[[11, 12]]`, `frame_start = 10`,
`buffer_end = 15` and previous segment ranges `[[8, 9.5]]`, the updated
cumulative labels are `[[11, 12]]` (the pre-buffer interval `[0, 1]` is
lost), whereas calling the function with the arguments in the declared order
yields `[[0, 1], [11, 12]]` — the merge of the prior cumulative labels with
the new VAD restricted to `[frame_start, buffer_end]` that the claim
describes. -/
theorem run_online_segmentation_cumulative_swapped_args :
    run_online_segmentation_cumulative 10 15 [(0, 1)] [(11, 12)] [(8, 19/2)] =
      .ok [(11, 12)] ∧
    (get_speech_labels_for_update 10 15 [(11, 12)] [(0, 1)] 10).2 =
      [(0, 1), (11, 12)] := by
  constructor <;> rfl

/-- C5 (counterexample): `get_subsegments(offset=0, window=1.5, shift=0.75,
duration=5)` returns 6 subsegments with starts
`0.0, 0.75, 1.5, 2.25, 3.0, 3.75`, not the 7 subsegments with starts
`0.0, 0.75, 1.5, 2.25, 3.0, 3.5, 4.25` stated by the claim. -/
theorem get_subsegments_five_seconds_counterexample :
    (get_subsegments 0 (3/2) (3/4) 5 (3/100) 2).map (fun l => l.map Prod.fst) =
      .ok [0, 3/4, 3/2, 9/4, 3, 15/4] ∧
    ([(0 : ℚ), 3/4, 3/2, 9/4, 3, 15/4] ≠ [0, 3/4, 3/2, 9/4, 3, 7/2, 17/4]) := by
  constructor
  · rfl
  · decide

/-- C5 (amended): `get_subsegments` with `offset=0, window=1.5, shift=0.75,
duration=5` returns exactly 6 subsegments `(start, duration)`:
starts `0.0, 0.75, 1.5, 2.25, 3.0, 3.75`, durations `1.5` except the last,
which is clipped to `1.25`. -/
theorem get_subsegments_five_seconds_layout :
    get_subsegments 0 (3/2) (3/4) 5 (3/100) 2 =
      .ok [(0, 3/2), (3/4, 3/2), (3/2, 3/2), (9/4, 3/2), (3, 3/2), (15/4, 5/4)] := by
  rfl

/-- C9 (code_bug evidence): at `offset=0, window=1.5, shift=0.75,
duration=0.75` (duration exactly equal to shift), `slices` evaluates to
`ceil((0.75-1.5)/0.75)+1 = 0`, the tensor branch builds an empty `dur_col`,
and `dur_col[-1]` raises `IndexError`; no subsegment list is returned. -/
theorem get_subsegments_duration_eq_shift_raises :
    get_subsegments 0 (3/2) (3/4) (3/4) (3/100) 2 = .error .indexError := by rfl

/-- C10 (confirmed): whenever `infer_overlap` is true and
`mask_spks_with_clus` is false, `generate_speaker_timestamps` raises
`NameError` at `min(active_spk_inds.shape[0], max_overlap_count)` because
`active_spk_inds` is only assigned under `mask_spks_with_clus` (the
hypothesis on `labels` only rules out the prior `IndexError` of the
fancy-index assignment for out-of-range cluster labels). -/
theorem generate_speaker_timestamps_name_error
    (labels : ℕ → ℤ) (preds : ℕ → ℕ → Option ℚ) (T M : ℕ) (θ : ℚ) (moc : ℕ)
    (prm : STParams) (hio : prm.infer_overlap = true)
    (hmask : prm.mask_spks_with_clus = false)
    (hlab : ∀ t, t < T → -1 < labels t → labels t < (M : ℤ)) :
    generate_speaker_timestamps labels preds T M θ moc prm = .error .nameError := by
  have hbad : stBadIdx labels T M = false := by
    simp only [stBadIdx, List.any_eq_false, List.mem_range, Bool.and_eq_true,
      decide_eq_true_eq, not_and]
    intro t ht h1 h2
    exact absurd (hlab t ht h1) (not_lt.mpr h2)
  simp [generate_speaker_timestamps, hbad, hio, hmask]

/-- C10 (witness): the theorem applied at `clus_labels = [0, 1]`,
`msdd_preds = [[0.9, 0.48], [0.9, 0.48]]`, `threshold = 0.5`. -/
theorem generate_speaker_timestamps_name_error_witness :
    generate_speaker_timestamps c1lab c1preds 2 2 (1/2) 2 c10prm =
      .error .nameError :=
  generate_speaker_timestamps_name_error c1lab c1preds 2 2 (1/2) 2 c10prm
    rfl rfl (by decide)

/-- C1 (counterexample): with `clus_labels = [0, 1]`,
`msdd_preds = [[0.9, 0.48], [0.9, 0.48]]`, `threshold = 0.5`,
`infer_overlap=True`, `mask_spks_with_clus=True`,
`overlap_infer_spk_limit=0`, the returned activation at `(0, 1)` is 1,
although `m=1` is not the top-1 of row 0, and the claim's
`A_ovl = 1[TopK ≥ θ ∧ logit_gap ≥ θ]` is 0 there (indeed
`0 < TopK[0,1] = 0.48 < θ = 0.5` while `logit_gap = 0.48/0.9 ≥ θ`): an entry
with `0 < TopK[t,m] < θ` does contribute to the returned overlap matrix. -/
theorem generate_speaker_timestamps_topk_threshold_counterexample :
    entryOf (generate_speaker_timestamps c1lab c1preds 2 2 (1/2) 2 c1prm) 0 1 = true ∧
    claimTop1 (stMaskedPreds c1lab c1preds 2 true) 2 0 1 = false ∧
    claimOvl c1lab c1preds 2 2 2 0 (1/2) 0 1 = false ∧
    vgtQ (stTopK2Of c1lab c1preds 2 2 2 0 0 1) 0 = true ∧
    vltQ (stTopK2Of c1lab c1preds 2 2 2 0 0 1) (1/2) = true := by
  refine ⟨rfl, rfl, rfl, rfl, rfl⟩

/-- C8 (counterexample): `generate_speaker_timestamps` performs no NaN check;
with `clus_labels = [0]` and `msdd_preds = [[0.9, nan]]` (the NaN confined to
column 1, which `mask_spks_with_clus` zeroes before the top-k stage), the
function returns a speaker-activation matrix instead of raising. -/
theorem generate_speaker_timestamps_nan_returns :
    exceptIsOk (generate_speaker_timestamps c8lab c8preds 1 2 (1/2) 2 c8prm) = true ∧
    c8preds 0 1 = none := by
  refine ⟨rfl, rfl⟩

/-- C6 (counterexample): three concrete refutations of exactly-one coverage
(`decimals=5, margin=2`).  (i) `[[0, 0.00001]]`: the interval's scaled length
is 1 ≤ margin, so it is dropped and its interior point `0.000005` is covered
by 0 output intervals.  (ii) `[[1, 2], [1.99999, 3]]` (grid endpoints, scaled
lengths > margin): after the margin is subtracted the two output intervals
overlap and the interior point `1.999995` is covered by 2 output intervals.
(iii) `[[0.000006, 1]]`: the off-grid start rounds up to `0.00001`, so the
interior point `0.000007` is covered by 0 output intervals. -/
theorem merge_float_intervals_coverage_counterexample :
    (merge_float_intervals [(0, 1/100000)] 5 2 = [] ∧
      (0 : ℚ) < 1/200000 ∧ (1/200000 : ℚ) < 1/100000) ∧
    (coveredCount (399999/200000) (merge_float_intervals [(1, 2), (199999/100000, 3)] 5 2) = 2 ∧
      (199999/100000 : ℚ) < 399999/200000 ∧ (399999/200000 : ℚ) < 3) ∧
    (coveredCount (7/1000000) (merge_float_intervals [(3/500000, 1)] 5 2) = 0 ∧
      (3/500000 : ℚ) < 7/1000000 ∧ (7/1000000 : ℚ) < 1) := by
  refine ⟨⟨by decide, by decide, by decide⟩, ⟨by decide, by decide, by decide⟩,
    ⟨by decide, by decide, by decide⟩⟩

/-!
### Toolkit: counting in sorted lists
-/

/-- In a sorted list, if a downward-closed predicate holds at position `i`,
it holds at the first `i+1` positions. -/
theorem countP_ge_of_sorted (l : List ℤ) (hs : l.Sorted (· ≤ ·)) (p : ℤ → Bool)
    (hmono : ∀ a b : ℤ, a ≤ b → p b = true → p a = true) (i : ℕ)
    (hi : i < l.length) (hp : p (l.get ⟨i, hi⟩) = true) : i + 1 ≤ l.countP p := by
  have hlen : (l.take (i + 1)).length = i + 1 := by
    rw [List.length_take]; omega
  have h1 : ∀ a ∈ l.take (i + 1), p a = true := by
    intro a ha
    obtain ⟨j, hj, heq⟩ := List.mem_iff_getElem.mp ha
    have hj1 : j < i + 1 := by rw [hlen] at hj; exact hj
    have hjl : j < l.length := by omega
    have hja : l[j] = a := by
      rw [← heq, List.getElem_take]
    have hle : l[j] ≤ l.get ⟨i, hi⟩ := by
      rcases Nat.lt_or_ge j i with h | h
      · exact List.pairwise_iff_getElem.mp hs j i hjl hi h
      · have : j = i := by omega
        subst this; rfl
    rw [← hja]
    exact hmono _ _ hle hp
  calc i + 1 = (l.take (i + 1)).countP p := by
        rw [List.countP_eq_length.mpr h1, hlen]
    _ ≤ (l.take (i + 1)).countP p + (l.drop (i + 1)).countP p := Nat.le_add_right _ _
    _ = l.countP p := by rw [← List.countP_append, List.take_append_drop]

/-- In a sorted list, if a downward-closed predicate fails at position `i`,
it holds at fewer than `i+1` positions. -/
theorem countP_le_of_sorted (l : List ℤ) (hs : l.Sorted (· ≤ ·)) (p : ℤ → Bool)
    (hmono : ∀ a b : ℤ, a ≤ b → p b = true → p a = true) (i : ℕ)
    (hi : i < l.length) (hp : p (l.get ⟨i, hi⟩) = false) : l.countP p ≤ i := by
  have h0 : ∀ a ∈ l.drop i, ¬ p a = true := by
    intro a ha
    obtain ⟨j, hj, heq⟩ := List.mem_iff_getElem.mp ha
    have hijl : i + j < l.length := by
      rw [List.length_drop] at hj; omega
    have hja : l[i + j] = a := by rw [← heq, List.getElem_drop]
    have hle : l.get ⟨i, hi⟩ ≤ l[i + j] := by
      rcases Nat.eq_zero_or_pos j with h | h
      · subst h
        simp only [List.get_eq_getElem, Nat.add_zero]
        exact le_refl _
      · exact List.pairwise_iff_getElem.mp hs i (i + j) hi hijl (by omega)
    intro hpa
    rw [← hja] at hpa
    have := hmono _ _ hle hpa
    rw [hp] at this
    exact Bool.false_ne_true this
  calc l.countP p = (l.take i).countP p + (l.drop i).countP p := by
        rw [← List.countP_append, List.take_append_drop]
    _ = (l.take i).countP p + 0 := by rw [List.countP_eq_zero.mpr h0]
    _ ≤ (l.take i).length := by
        have := List.countP_le_length (p := p) (l := l.take i); omega
    _ ≤ i := by rw [List.length_take]; omega

/-- Lengths of the sorted columns. -/
theorem length_sortedStarts (R : List (ℤ × ℤ)) : (sortedStarts R).length = R.length := by
  simp [sortedStarts, List.length_insertionSort]

/-- Lengths of the sorted columns. -/
theorem length_sortedEnds (R : List (ℤ × ℤ)) : (sortedEnds R).length = R.length := by
  simp [sortedEnds, List.length_insertionSort]

/-- Length of the re-paired row list. -/
theorem length_zipSorted (R : List (ℤ × ℤ)) : (zipSorted R).length = R.length := by
  simp [zipSorted, List.length_zip, length_sortedStarts, length_sortedEnds]

/-- The sorted start column is sorted. -/
theorem sorted_sortedStarts (R : List (ℤ × ℤ)) : (sortedStarts R).Sorted (· ≤ ·) :=
  List.sorted_insertionSort _ _

/-- The sorted end column is sorted. -/
theorem sorted_sortedEnds (R : List (ℤ × ℤ)) : (sortedEnds R).Sorted (· ≤ ·) :=
  List.sorted_insertionSort _ _

/-- Each re-paired row of the column sort is a nonempty interval: the i-th
smallest start is strictly below the i-th smallest end (for inputs whose
rows are all strict intervals). -/
theorem zipSorted_row_strict (R : List (ℤ × ℤ)) (hR : ∀ x ∈ R, x.1 < x.2) (i : ℕ)
    (hi1 : i < (sortedStarts R).length) (hi2 : i < (sortedEnds R).length) :
    (sortedStarts R).get ⟨i, hi1⟩ < (sortedEnds R).get ⟨i, hi2⟩ := by
  set x := (sortedEnds R).get ⟨i, hi2⟩ with hx
  have h1 : i + 1 ≤ (sortedEnds R).countP (fun v => decide (v ≤ x)) := by
    refine countP_ge_of_sorted _ (sorted_sortedEnds R) _ ?_ i hi2 (by simp [hx])
    intro a b hab hb
    simp only [decide_eq_true_eq] at hb ⊢
    exact le_trans hab hb
  have e1 : (sortedEnds R).countP (fun v => decide (v ≤ x)) =
      R.countP (fun r => decide (r.2 ≤ x)) := by
    rw [sortedEnds, (List.perm_insertionSort _ _).countP_eq, List.countP_map]
    rfl
  have h2 : R.countP (fun r => decide (r.2 ≤ x)) ≤ R.countP (fun r => decide (r.1 < x)) := by
    refine List.countP_mono_left ?_
    intro r hr h
    simp only [decide_eq_true_eq] at h ⊢
    exact lt_of_lt_of_le (hR r hr) h
  have e2 : (sortedStarts R).countP (fun v => decide (v < x)) =
      R.countP (fun r => decide (r.1 < x)) := by
    rw [sortedStarts, (List.perm_insertionSort _ _).countP_eq, List.countP_map]
    rfl
  by_contra hcon
  push_neg at hcon
  have h3 : (sortedStarts R).countP (fun v => decide (v < x)) ≤ i := by
    refine countP_le_of_sorted _ (sorted_sortedStarts R) _ ?_ i hi1 ?_
    · intro a b hab hb
      simp only [decide_eq_true_eq] at hb ⊢
      exact lt_of_le_of_lt hab hb
    · simp only [decide_eq_false_iff_not, not_lt]
      exact hcon
  omega

/-- Coverage transfer: a point inside some input row is inside some re-paired
row of the column sort. -/
theorem zipSorted_cover (R : List (ℤ × ℤ)) (hR : ∀ x ∈ R, x.1 < x.2)
    (y : ℤ × ℤ) (hy : y ∈ R) (n : ℤ) (hy1 : y.1 ≤ n) (hy2 : n ≤ y.2) :
    ∃ i, ∃ hi1 : i < (sortedStarts R).length, ∃ hi2 : i < (sortedEnds R).length,
      (sortedStarts R).get ⟨i, hi1⟩ ≤ n ∧ n ≤ (sortedEnds R).get ⟨i, hi2⟩ := by
  have hmono_le : ∀ a b : ℤ, a ≤ b → decide (b ≤ n) = true → decide (a ≤ n) = true := by
    intro a b hab hb
    simp only [decide_eq_true_eq] at hb ⊢
    exact le_trans hab hb
  have hmono_lt : ∀ a b : ℤ, a ≤ b → decide (b < n) = true → decide (a < n) = true := by
    intro a b hab hb
    simp only [decide_eq_true_eq] at hb ⊢
    exact lt_of_le_of_lt hab hb
  have ecs : (sortedStarts R).countP (fun v => decide (v ≤ n)) =
      R.countP (fun r => decide (r.1 ≤ n)) := by
    rw [sortedStarts, (List.perm_insertionSort _ _).countP_eq, List.countP_map]
    rfl
  have ece : (sortedEnds R).countP (fun v => decide (v < n)) =
      R.countP (fun r => decide (r.2 < n)) := by
    rw [sortedEnds, (List.perm_insertionSort _ _).countP_eq, List.countP_map]
    rfl
  have hcount : R.countP (fun r => decide (r.2 < n)) + 1 ≤
      R.countP (fun r => decide (r.1 ≤ n)) := by
    obtain ⟨u, v, rfl⟩ := List.append_of_mem hy
    have hu : (u : List (ℤ × ℤ)).countP (fun r => decide (r.2 < n)) ≤
        u.countP (fun r => decide (r.1 ≤ n)) := by
      refine List.countP_mono_left ?_
      intro r hr h
      simp only [decide_eq_true_eq] at h ⊢
      have : r.1 < r.2 := hR r (by simp [hr])
      omega
    have hv : (v : List (ℤ × ℤ)).countP (fun r => decide (r.2 < n)) ≤
        v.countP (fun r => decide (r.1 ≤ n)) := by
      refine List.countP_mono_left ?_
      intro r hr h
      simp only [decide_eq_true_eq] at h ⊢
      have : r.1 < r.2 := hR r (by simp [hr])
      omega
    have hyt : decide (y.1 ≤ n) = true := by simpa using hy1
    have hyf : decide (y.2 < n) = false := by
      simp only [decide_eq_false_iff_not, not_lt]
      exact hy2
    rw [List.countP_append, List.countP_append, List.countP_cons, List.countP_cons,
      hyt, hyf]
    simp
    omega
  set i := R.countP (fun r => decide (r.2 < n)) with hidef
  have hilt : i < R.length := by
    have := List.countP_le_length (p := fun r => decide (r.1 ≤ n)) (l := R)
    omega
  have hi1 : i < (sortedStarts R).length := by rw [length_sortedStarts]; exact hilt
  have hi2 : i < (sortedEnds R).length := by rw [length_sortedEnds]; exact hilt
  refine ⟨i, hi1, hi2, ?_, ?_⟩
  · by_contra hcon
    push_neg at hcon
    have h3 : (sortedStarts R).countP (fun v => decide (v ≤ n)) ≤ i := by
      refine countP_le_of_sorted _ (sorted_sortedStarts R) _ hmono_le i hi1 ?_
      simp only [decide_eq_false_iff_not, not_le]
      exact hcon
    omega
  · by_contra hcon
    push_neg at hcon
    have h3 : i + 1 ≤ (sortedEnds R).countP (fun v => decide (v < n)) := by
      refine countP_ge_of_sorted _ (sorted_sortedEnds R) _ hmono_lt i hi2 ?_
      simpa using hcon
    omega

/-- The re-paired rows are sorted by start. -/
theorem zipSorted_pairwise_fst (R : List (ℤ × ℤ)) :
    (zipSorted R).Pairwise (fun a b => a.1 ≤ b.1) := by
  have hmapfst : (zipSorted R).map Prod.fst = sortedStarts R :=
    List.map_fst_zip _ _ (le_of_eq (by rw [length_sortedStarts, length_sortedEnds]))
  have hpw : ((zipSorted R).map Prod.fst).Pairwise (· ≤ ·) := by
    rw [hmapfst]; exact sorted_sortedStarts R
  rwa [List.pairwise_map] at hpw

/-- The sweep never loses coverage: a point covered by the carried interval
or by a remaining interval is covered by some emitted interval (for a
remainder list sorted by start whose starts dominate the carried start). -/
theorem sweepGo_covers (P : List (ℤ × ℤ)) (s e n : ℤ)
    (hP : P.Pairwise (fun a b => a.1 ≤ b.1))
    (hs : ∀ y ∈ P, s ≤ y.1)
    (hcov : (s ≤ n ∧ n ≤ e) ∨ ∃ y ∈ P, y.1 ≤ n ∧ n ≤ y.2) :
    ∃ z ∈ sweepGo s e P, z.1 ≤ n ∧ n ≤ z.2 := by
  induction P generalizing s e with
  | nil =>
    rcases hcov with ⟨h1, h2⟩ | ⟨y, hy, _⟩
    · exact ⟨(s, e), by simp [sweepGo], h1, h2⟩
    · simp at hy
  | cons a rest ih =>
    obtain ⟨s2, e2⟩ := a
    have hpw2 := (List.pairwise_cons.mp hP).2
    have hhead := (List.pairwise_cons.mp hP).1
    rw [sweepGo]
    by_cases hbr : s2 ≤ e
    · rw [if_pos hbr]
      refine ih s (max e2 e) hpw2 (fun y hy => hs y (List.mem_cons_of_mem _ hy)) ?_
      rcases hcov with ⟨h1, h2⟩ | ⟨y, hy, hy1, hy2⟩
      · exact Or.inl ⟨h1, le_trans h2 (le_max_right e2 e)⟩
      · rcases List.mem_cons.mp hy with h | hy'
        · subst h
          exact Or.inl ⟨le_trans (hs _ (List.mem_cons_self _ _)) hy1,
            le_trans hy2 (le_max_left e2 e)⟩
        · exact Or.inr ⟨y, hy', hy1, hy2⟩
    · rw [if_neg hbr]
      rcases hcov with ⟨h1, h2⟩ | ⟨y, hy, hy1, hy2⟩
      · exact ⟨(s, e), List.mem_cons_self _ _, h1, h2⟩
      · rcases List.mem_cons.mp hy with h | hy'
        · subst h
          obtain ⟨z, hz, hc⟩ := ih s2 (max e2 e) hpw2 hhead
            (Or.inl ⟨hy1, le_trans hy2 (le_max_left e2 e)⟩)
          exact ⟨z, List.mem_cons_of_mem _ hz, hc⟩
        · obtain ⟨z, hz, hc⟩ := ih s2 (max e2 e) hpw2 hhead (Or.inr ⟨y, hy', hy1, hy2⟩)
          exact ⟨z, List.mem_cons_of_mem _ hz, hc⟩

/-- `merge_int_intervals` coverage: a point inside some input interval is
inside some output interval (inputs all strict). -/
theorem merge_int_intervals_covers (R : List (ℤ × ℤ)) (hR : ∀ x ∈ R, x.1 < x.2)
    (y : ℤ × ℤ) (hy : y ∈ R) (n : ℤ) (hy1 : y.1 ≤ n) (hy2 : n ≤ y.2) :
    ∃ z ∈ merge_int_intervals R, z.1 ≤ n ∧ n ≤ z.2 := by
  match R with
  | [] => cases hy
  | [x] =>
    have hx : y = x := by simpa using hy
    subst hx
    exact ⟨y, by simp [merge_int_intervals], hy1, hy2⟩
  | a :: b :: rest =>
    obtain ⟨i, hi1, hi2, hle, hge⟩ := zipSorted_cover _ hR y hy n hy1 hy2
    have hlen : (zipSorted (a :: b :: rest)).length = (a :: b :: rest).length :=
      length_zipSorted _
    have hiZ : i < (zipSorted (a :: b :: rest)).length := by
      rw [hlen]
      rw [length_sortedStarts] at hi1
      exact hi1
    have hgetZ : (zipSorted (a :: b :: rest)).get ⟨i, hiZ⟩ =
        ((sortedStarts (a :: b :: rest)).get ⟨i, hi1⟩,
         (sortedEnds (a :: b :: rest)).get ⟨i, hi2⟩) := by
      simp only [zipSorted, List.get_eq_getElem, List.getElem_zip]
    obtain ⟨⟨s0, e0⟩, zrest, hzz⟩ :
        ∃ z0 zrest, zipSorted (a :: b :: rest) = z0 :: zrest := by
      cases hzc : zipSorted (a :: b :: rest) with
      | nil => rw [hzc] at hlen; simp at hlen
      | cons z0 zrest => exact ⟨z0, zrest, rfl⟩
    have hmerge : merge_int_intervals (a :: b :: rest) = sweepGo s0 e0 zrest := by
      rw [merge_int_intervals, hzz]
    have hpw : (zipSorted (a :: b :: rest)).Pairwise (fun a b => a.1 ≤ b.1) :=
      zipSorted_pairwise_fst _
    rw [hzz] at hpw
    have hpw2 := (List.pairwise_cons.mp hpw).2
    have hhead := (List.pairwise_cons.mp hpw).1
    rw [hmerge]
    have hmemZ : (zipSorted (a :: b :: rest)).get ⟨i, hiZ⟩ ∈
        zipSorted (a :: b :: rest) := List.get_mem _ _ _
    rw [hgetZ, hzz] at hmemZ
    rcases List.mem_cons.mp hmemZ with hz0 | hzr
    · refine sweepGo_covers zrest s0 e0 n hpw2 hhead (Or.inl ?_)
      rw [Prod.mk.injEq] at hz0
      constructor
      · rw [← hz0.1]; exact hle
      · rw [← hz0.2]; exact hge
    · exact sweepGo_covers zrest s0 e0 n hpw2 hhead (Or.inr ⟨_, hzr, hle, hge⟩)

/-- Half-even rounding is exact on integers. -/
theorem roundHalfEven_intCast (n : ℤ) : roundHalfEven (n : ℚ) = n := by
  simp only [roundHalfEven, Int.floor_intCast, sub_self]
  norm_num

/-- `fl2int` is exact on grid-aligned values. -/
theorem fl2int_div_pow (a : ℤ) (d : ℕ) : fl2int ((a : ℚ) / 10 ^ d) d = a := by
  unfold fl2int
  have h : ((a : ℚ) / 10 ^ d) * 10 ^ d = (a : ℚ) := by
    field_simp
  rw [h, roundHalfEven_intCast]

/-- Every row kept by the integer-scaling stage is a strict interval. -/
theorem rangesInt_strict (L : List (ℚ × ℚ)) (d m : ℕ) :
    ∀ x ∈ rangesInt L d m, x.1 < x.2 := by
  intro x hx
  rw [rangesInt, List.mem_filterMap] at hx
  obtain ⟨w, _, hfw⟩ := hx
  simp only at hfw
  split at hfw
  · rename_i hcond
    cases hfw
    exact hcond
  · cases hfw

/-- A grid-aligned input interval of scaled length above the margin
contributes its scaled row to the integer-scaling stage. -/
theorem rangesInt_mem_of_grid (L : List (ℚ × ℚ)) (r : ℚ × ℚ) (hrL : r ∈ L)
    (a b : ℤ) (ha : r.1 = (a : ℚ) / 10 ^ 5) (hb : r.2 = (b : ℚ) / 10 ^ 5)
    (hab : a + 2 < b) : (a + 2, b) ∈ rangesInt L 5 2 := by
  rw [rangesInt, List.mem_filterMap]
  refine ⟨r, hrL, ?_⟩
  simp only [ha, hb, fl2int_div_pow]
  have h2 : ((2 : ℕ) : ℤ) = 2 := rfl
  rw [h2, if_pos hab]

/-- C6 (amended): with `decimals=5, margin=2`, every point strictly inside
some input interval with grid-aligned endpoints and scaled length above the
margin is covered by at least one output interval of
`merge_float_intervals`. -/
theorem merge_float_intervals_covers (L : List (ℚ × ℚ)) (p : ℚ)
    (h : ∃ r ∈ L, (∃ a b : ℤ, r.1 = (a : ℚ) / 100000 ∧ r.2 = (b : ℚ) / 100000 ∧
      a + 2 < b) ∧ r.1 < p ∧ p < r.2) :
    ∃ u ∈ merge_float_intervals L 5 2, u.1 ≤ p ∧ p ≤ u.2 := by
  obtain ⟨r, hrL, ⟨a, b, ha, hb, hab⟩, hp1, hp2⟩ := h
  have hpow : ((100000 : ℚ)) = 10 ^ 5 := by norm_num
  rw [hpow] at ha hb
  have hpos : (0 : ℚ) < 10 ^ 5 := by norm_num
  have hne : ((10 : ℚ) ^ 5) ≠ 0 := by norm_num
  -- the point in scaled coordinates
  have hap : (a : ℚ) < p * 10 ^ 5 := by
    have h1 : (a : ℚ) / 10 ^ 5 < p := ha ▸ hp1
    have h2 := mul_lt_mul_of_pos_right h1 hpos
    rwa [div_mul_cancel₀ _ hne] at h2
  have hpb : p * 10 ^ 5 < (b : ℚ) := by
    have h1 : p < (b : ℚ) / 10 ^ 5 := hb ▸ hp2
    have h2 := mul_lt_mul_of_pos_right h1 hpos
    rwa [div_mul_cancel₀ _ hne] at h2
  -- integer point to track through the merge
  set n : ℤ := max (a + 2) ⌈p * 10 ^ 5⌉ with hn
  have hn1 : a + 2 ≤ n := le_max_left _ _
  have hn2 : n ≤ b := by
    apply max_le
    · omega
    · rw [Int.ceil_le]
      exact le_of_lt hpb
  have hmem := rangesInt_mem_of_grid L r hrL a b ha hb hab
  obtain ⟨z, hz, hz1, hz2⟩ := merge_int_intervals_covers (rangesInt L 5 2)
    (rangesInt_strict L 5 2) (a + 2, b) hmem n hn1 hn2
  refine ⟨(int2fl (z.1 - 2) 5, int2fl z.2 5), ?_, ?_, ?_⟩
  · rw [merge_float_intervals]
    exact List.mem_map_of_mem _ hz
  · -- (z.1 - 2)/10^5 ≤ p
    simp only [int2fl]
    rw [div_le_iff₀ hpos]
    push_cast
    have hzn : (z.1 : ℚ) ≤ (n : ℚ) := by exact_mod_cast hz1
    rcases max_choice (a + 2) ⌈p * 10 ^ 5⌉ with hmx | hmx
    · rw [hn, hmx] at hzn
      push_cast at hzn
      linarith
    · rw [hn, hmx] at hzn
      have hceil : (⌈p * 10 ^ 5⌉ : ℚ) < p * 10 ^ 5 + 1 := Int.ceil_lt_add_one _
      linarith
  · -- p ≤ z.2/10^5
    simp only [int2fl]
    rw [le_div_iff₀ hpos]
    have h1 : p * 10 ^ 5 ≤ (⌈p * 10 ^ 5⌉ : ℚ) := Int.le_ceil _
    have h2 : (⌈p * 10 ^ 5⌉ : ℤ) ≤ n := le_max_right _ _
    have h3 : (n : ℚ) ≤ (z.2 : ℚ) := by exact_mod_cast hz2
    have h2q : ((⌈p * 10 ^ 5⌉ : ℤ) : ℚ) ≤ (n : ℚ) := by exact_mod_cast h2
    linarith

/-- C6 (witness): the amended coverage theorem applied to the single
interval `[0, 1]` and the interior point `1/2`. -/
theorem merge_float_intervals_covers_witness :
    ∃ u ∈ merge_float_intervals [((0 : ℚ), (1 : ℚ))] 5 2, u.1 ≤ 1/2 ∧ 1/2 ≤ u.2 :=
  merge_float_intervals_covers [((0 : ℚ), (1 : ℚ))] (1/2)
    ⟨(0, 1), by simp, ⟨0, 100000, by norm_num, by norm_num, by norm_num⟩,
      by norm_num, by norm_num⟩

/-!
### Toolkit: structure of the merge output (for idempotence)
-/

/-- The sweep's first emitted interval starts at the carried start. -/
theorem sweepGo_head (P : List (ℤ × ℤ)) : ∀ s e : ℤ,
    ∃ e2 tl, sweepGo s e P = (s, e2) :: tl := by
  induction P with
  | nil => intro s e; exact ⟨e, [], rfl⟩
  | cons a rest ih =>
    intro s e
    obtain ⟨s2, e2⟩ := a
    rw [sweepGo]
    by_cases hbr : s2 ≤ e
    · rw [if_pos hbr]; exact ih s (max e2 e)
    · rw [if_neg hbr]
      obtain ⟨e3, tl, htl⟩ := ih s2 (max e2 e)
      exact ⟨e, (s2, e3) :: tl, by rw [htl]⟩

/-- Every emitted interval of the sweep is strict when the carried interval
and all remaining intervals are strict. -/
theorem sweepGo_strict (P : List (ℤ × ℤ)) : ∀ s e : ℤ, s < e →
    (∀ y ∈ P, y.1 < y.2) → ∀ z ∈ sweepGo s e P, z.1 < z.2 := by
  induction P with
  | nil =>
    intro s e hse _ z hz
    simp only [sweepGo, List.mem_singleton] at hz
    subst hz; exact hse
  | cons a rest ih =>
    intro s e hse hP z hz
    obtain ⟨s2, e2⟩ := a
    rw [sweepGo] at hz
    have h2 : s2 < e2 := hP (s2, e2) (List.mem_cons_self _ _)
    have hrest : ∀ y ∈ rest, y.1 < y.2 := fun y hy => hP y (List.mem_cons_of_mem _ hy)
    by_cases hbr : s2 ≤ e
    · rw [if_pos hbr] at hz
      exact ih s (max e2 e) (lt_of_lt_of_le hse (le_max_right e2 e)) hrest z hz
    · rw [if_neg hbr] at hz
      rcases List.mem_cons.mp hz with h | hz'
      · subst h; exact hse
      · exact ih s2 (max e2 e) (lt_of_lt_of_le h2 (le_max_left e2 e)) hrest z hz'

/-- Consecutive emitted intervals of the sweep are separated:
`end < next start`. -/
theorem sweepGo_chain (P : List (ℤ × ℤ)) : ∀ s e : ℤ,
    List.Chain' (fun x y => x.2 < y.1) (sweepGo s e P) := by
  induction P with
  | nil => intro s e; simp [sweepGo]
  | cons a rest ih =>
    intro s e
    obtain ⟨s2, e2⟩ := a
    rw [sweepGo]
    by_cases hbr : s2 ≤ e
    · rw [if_pos hbr]; exact ih s (max e2 e)
    · rw [if_neg hbr]
      obtain ⟨e3, tl, htl⟩ := sweepGo_head rest s2 (max e2 e)
      rw [htl]
      refine List.chain'_cons.mpr ⟨?_, ?_⟩
      · simpa using lt_of_not_le hbr
      · rw [← htl]; exact ih s2 (max e2 e)

/-- Every re-paired row of the column sort is strict (membership form). -/
theorem zipSorted_mem_strict (R : List (ℤ × ℤ)) (hR : ∀ x ∈ R, x.1 < x.2) :
    ∀ y ∈ zipSorted R, y.1 < y.2 := by
  intro y hy
  obtain ⟨i, hi, hget⟩ := List.mem_iff_getElem.mp hy
  have hi1 : i < (sortedStarts R).length := by
    have := hi
    rw [zipSorted, List.length_zip] at this
    omega
  have hi2 : i < (sortedEnds R).length := by
    have := hi
    rw [zipSorted, List.length_zip] at this
    omega
  have : (zipSorted R)[i] = ((sortedStarts R).get ⟨i, hi1⟩, (sortedEnds R).get ⟨i, hi2⟩) := by
    simp only [zipSorted, List.getElem_zip, List.get_eq_getElem]
  rw [← hget, this]
  exact zipSorted_row_strict R hR i hi1 hi2

/-- Every output interval of `merge_int_intervals` is strict (inputs all
strict). -/
theorem merge_int_intervals_strict (R : List (ℤ × ℤ)) (hR : ∀ x ∈ R, x.1 < x.2) :
    ∀ z ∈ merge_int_intervals R, z.1 < z.2 := by
  match R with
  | [] => intro z hz; simp [merge_int_intervals] at hz
  | [x] =>
    intro z hz
    simp only [merge_int_intervals, List.mem_singleton] at hz
    subst hz
    exact hR z (by simp)
  | a :: b :: rest =>
    intro z hz
    have hzs := zipSorted_mem_strict (a :: b :: rest) hR
    have hlen : (zipSorted (a :: b :: rest)).length = (a :: b :: rest).length :=
      length_zipSorted _
    obtain ⟨⟨s0, e0⟩, zrest, hzz⟩ :
        ∃ z0 zrest, zipSorted (a :: b :: rest) = z0 :: zrest := by
      cases hzc : zipSorted (a :: b :: rest) with
      | nil => rw [hzc] at hlen; simp at hlen
      | cons z0 zrest => exact ⟨z0, zrest, rfl⟩
    rw [merge_int_intervals, hzz] at hz
    have h0 : (s0 : ℤ) < e0 := by
      have := hzs (s0, e0) (by rw [hzz]; exact List.mem_cons_self _ _)
      simpa using this
    exact sweepGo_strict zrest s0 e0 h0
      (fun y hy => hzs y (by rw [hzz]; exact List.mem_cons_of_mem _ hy)) z hz

/-- Consecutive output intervals of `merge_int_intervals` are separated. -/
theorem merge_int_intervals_chain (R : List (ℤ × ℤ)) :
    List.Chain' (fun x y => x.2 < y.1) (merge_int_intervals R) := by
  match R with
  | [] => simp [merge_int_intervals]
  | [x] => simp [merge_int_intervals]
  | a :: b :: rest =>
    rw [merge_int_intervals]
    cases hzc : zipSorted (a :: b :: rest) with
    | nil => simp
    | cons z0 zrest =>
      obtain ⟨s0, e0⟩ := z0
      exact sweepGo_chain zrest s0 e0

/-- A separated list of strict intervals is pairwise separated. -/
theorem chain_strict_pairwise (O : List (ℤ × ℤ)) (hstrict : ∀ y ∈ O, y.1 < y.2)
    (hchain : List.Chain' (fun x y => x.2 < y.1) O) :
    O.Pairwise (fun x y => x.2 < y.1) := by
  induction O with
  | nil => exact List.Pairwise.nil
  | cons a rest ih =>
    have hrest : ∀ y ∈ rest, y.1 < y.2 := fun y hy => hstrict y (List.mem_cons_of_mem _ hy)
    have hchain2 : List.Chain' (fun x y => x.2 < y.1) rest := hchain.tail
    have hpw := ih hrest hchain2
    refine List.pairwise_cons.mpr ⟨?_, hpw⟩
    intro z hz
    cases rest with
    | nil => cases hz
    | cons b rest2 =>
      have hab : a.2 < b.1 := (List.chain'_cons.mp hchain).1
      rcases List.mem_cons.mp hz with h | hz'
      · subst h; exact hab
      · have hbz : b.2 < z.1 := (List.pairwise_cons.mp hpw).1 z hz'
        have hb : b.1 < b.2 := hstrict b (by simp)
        omega

/-- Re-pairing the two columns of a pair list gives back the list. -/
theorem zip_columns_eta (O : List (ℤ × ℤ)) :
    (O.map Prod.fst).zip (O.map Prod.snd) = O := by
  induction O with
  | nil => rfl
  | cons a rest ih => simp [ih]

/-- The sweep leaves a separated list of strict intervals unchanged. -/
theorem sweepGo_of_separated (t : List (ℤ × ℤ)) : ∀ s e : ℤ,
    (∀ y ∈ t, y.1 < y.2) →
    List.Chain' (fun x y => x.2 < y.1) ((s, e) :: t) →
    sweepGo s e t = (s, e) :: t := by
  induction t with
  | nil => intro s e _ _; rfl
  | cons a t2 ih =>
    intro s e hstrict hchain
    obtain ⟨s2, e2⟩ := a
    have h1 : e < s2 := by simpa using (List.chain'_cons.mp hchain).1
    have h2 : s2 < e2 := by
      have := hstrict (s2, e2) (by simp)
      simpa using this
    rw [sweepGo, if_neg (by omega)]
    have hmax : max e2 e = e2 := max_eq_left (by omega)
    rw [hmax]
    have := ih s2 e2 (fun y hy => hstrict y (List.mem_cons_of_mem _ hy))
      (List.chain'_cons.mp hchain).2
    rw [this]

/-- `merge_int_intervals` is the identity on separated lists of strict
intervals. -/
theorem merge_int_intervals_of_separated (O : List (ℤ × ℤ))
    (hstrict : ∀ y ∈ O, y.1 < y.2)
    (hchain : List.Chain' (fun x y => x.2 < y.1) O) :
    merge_int_intervals O = O := by
  match O with
  | [] => rfl
  | [x] => rfl
  | a :: b :: rest =>
    have hpw := chain_strict_pairwise _ hstrict hchain
    have hfst : ((a :: b :: rest).map Prod.fst).Sorted (· ≤ ·) := by
      rw [List.Sorted, List.pairwise_map]
      refine List.Pairwise.imp_of_mem ?_ hpw
      intro x y hx _ hxy
      have hxs : x.1 < x.2 := hstrict x hx
      omega
    have hsnd : ((a :: b :: rest).map Prod.snd).Sorted (· ≤ ·) := by
      rw [List.Sorted, List.pairwise_map]
      refine List.Pairwise.imp_of_mem ?_ hpw
      intro x y _ hy hxy
      have hys : y.1 < y.2 := hstrict y hy
      omega
    have hss : sortedStarts (a :: b :: rest) = (a :: b :: rest).map Prod.fst :=
      hfst.insertionSort_eq
    have hes : sortedEnds (a :: b :: rest) = (a :: b :: rest).map Prod.snd :=
      hsnd.insertionSort_eq
    have hzip : zipSorted (a :: b :: rest) = a :: b :: rest := by
      rw [zipSorted, hss, hes, zip_columns_eta]
    rw [merge_int_intervals, hzip]
    have hsw := sweepGo_of_separated (b :: rest) a.1 a.2
      (fun y hy => hstrict y (List.mem_cons_of_mem _ hy))
      (by simpa using hchain)
    simpa using hsw

/-- Scaling the merged output back to floats and re-scaling to integers is
the identity (the margin is re-added and every merged interval is strict, so
nothing is dropped). -/
theorem rangesInt_round_trip (d m : ℕ) : ∀ O : List (ℤ × ℤ),
    (∀ y ∈ O, y.1 < y.2) →
    rangesInt (O.map (fun x => (int2fl (x.1 - m) d, int2fl x.2 d))) d m = O := by
  intro O
  induction O with
  | nil => intro _; rfl
  | cons a rest ih =>
    intro hstrict
    have ha : a.1 < a.2 := hstrict a (by simp)
    have hrest := ih (fun y hy => hstrict y (List.mem_cons_of_mem _ hy))
    rw [rangesInt] at hrest ⊢
    rw [List.map_cons, List.filterMap_cons]
    simp only [int2fl, fl2int_div_pow, Int.sub_add_cancel] at hrest ⊢
    rw [if_pos ha]
    simp only [Prod.mk.eta]
    rw [hrest]

/-- C7 (confirmed): `merge_float_intervals` is idempotent (default
`decimals=5, margin=2`) on lists of intervals with `end ≥ start`. -/
theorem merge_float_intervals_idempotent (L : List (ℚ × ℚ))
    (h : ∀ r ∈ L, r.1 ≤ r.2) :
    merge_float_intervals (merge_float_intervals L 5 2) 5 2 =
      merge_float_intervals L 5 2 := by
  have hstrictR := rangesInt_strict L 5 2
  have hstrictO : ∀ y ∈ merge_int_intervals (rangesInt L 5 2), y.1 < y.2 :=
    merge_int_intervals_strict _ hstrictR
  have hchainO := merge_int_intervals_chain (rangesInt L 5 2)
  have h1 : merge_float_intervals L 5 2 =
      (merge_int_intervals (rangesInt L 5 2)).map
        (fun x => (int2fl (x.1 - ((2 : ℕ) : ℤ)) 5, int2fl x.2 5)) := by
    rw [merge_float_intervals]
  calc merge_float_intervals (merge_float_intervals L 5 2) 5 2
      = (merge_int_intervals (rangesInt (merge_float_intervals L 5 2) 5 2)).map
          (fun x => (int2fl (x.1 - ((2 : ℕ) : ℤ)) 5, int2fl x.2 5)) := by
        rw [merge_float_intervals]
    _ = (merge_int_intervals (merge_int_intervals (rangesInt L 5 2))).map
          (fun x => (int2fl (x.1 - ((2 : ℕ) : ℤ)) 5, int2fl x.2 5)) := by
        rw [h1, rangesInt_round_trip 5 2 _ hstrictO]
    _ = (merge_int_intervals (rangesInt L 5 2)).map
          (fun x => (int2fl (x.1 - ((2 : ℕ) : ℤ)) 5, int2fl x.2 5)) := by
        rw [merge_int_intervals_of_separated _ hstrictO hchainO]
    _ = merge_float_intervals L 5 2 := h1.symm

/-- C7 (witness): idempotence applied to the concrete list
`[[0, 1], [0.5, 0.75]]`. -/
theorem merge_float_intervals_idempotent_witness :
    merge_float_intervals (merge_float_intervals [((0 : ℚ), (1 : ℚ)), (1/2, 3/4)] 5 2) 5 2 =
      merge_float_intervals [((0 : ℚ), (1 : ℚ)), (1/2, 3/4)] 5 2 :=
  merge_float_intervals_idempotent [((0 : ℚ), (1 : ℚ)), (1/2, 3/4)] (by decide)

/-!
### Toolkit: the top-k rank order
-/

/-- The top-k value order is irreflexive. -/
theorem vgtStrict_irrefl (a : Option ℚ) : vgtStrict a a = false := by
  cases a <;> simp [vgtStrict]

/-- The top-k index order is irreflexive. -/
theorem beats_irrefl (r : ℕ → Option ℚ) (m : ℕ) : beats r m m = false := by
  simp [beats, vgtStrict_irrefl]

/-- The top-k index order is total on distinct indices. -/
theorem beats_total (r : ℕ → Option ℚ) (j m : ℕ) (h : j ≠ m) :
    beats r j m = true ∨ beats r m j = true := by
  have hlt : j < m ∨ m < j := by omega
  cases hvt : vgtStrict (r j) (r m)
  · cases hvt2 : vgtStrict (r m) (r j)
    · rcases hlt with h1 | h1
      · left; simp [beats, hvt, hvt2, h1]
      · right; simp [beats, hvt, hvt2, h1]
    · right; simp [beats, hvt2]
  · left; simp [beats, hvt]

/-- The top-k value order is transitive. -/
theorem vgtStrict_trans (a b c : Option ℚ) (h1 : vgtStrict a b = true)
    (h2 : vgtStrict b c = true) : vgtStrict a c = true := by
  cases a <;> cases b <;> cases c <;> simp [vgtStrict] at h1 h2 ⊢ <;>
    try exact lt_trans h2 h1

/-- A value tied with a greater value is greater. -/
theorem vgtStrict_tie_left (a b c : Option ℚ) (hab1 : vgtStrict a b = false)
    (hab2 : vgtStrict b a = false) (h : vgtStrict b c = true) :
    vgtStrict a c = true := by
  cases a <;> cases b <;> simp [vgtStrict] at hab1 hab2 ⊢ <;> try simp_all [vgtStrict]
  rename_i x y
  have : x = y := le_antisymm hab1 hab2
  subst this
  exact h

/-- A value greater than one of two tied values is greater than both. -/
theorem vgtStrict_tie_right (a b c : Option ℚ) (hbc1 : vgtStrict b c = false)
    (hbc2 : vgtStrict c b = false) (h : vgtStrict a b = true) :
    vgtStrict a c = true := by
  cases b <;> cases c <;> simp [vgtStrict] at hbc1 hbc2 ⊢ <;> try simp_all [vgtStrict]
  rename_i x y
  have : x = y := le_antisymm hbc1 hbc2
  subst this
  exact h

/-- Ties compose. -/
theorem vgtStrict_tie_trans (a b c : Option ℚ) (hab1 : vgtStrict a b = false)
    (hab2 : vgtStrict b a = false) (hbc1 : vgtStrict b c = false)
    (hbc2 : vgtStrict c b = false) :
    vgtStrict a c = false ∧ vgtStrict c a = false := by
  cases a <;> cases b <;> cases c <;> simp [vgtStrict] at hab1 hab2 hbc1 hbc2 ⊢ <;>
    try simp_all [vgtStrict]
  rename_i x y z
  have hxy : x = y := le_antisymm hab1 hab2
  have hyz : y = z := le_antisymm hbc1 hbc2
  subst hxy; subst hyz
  simp

/-- The top-k index order is transitive. -/
theorem beats_trans (r : ℕ → Option ℚ) (i j k : ℕ) (h1 : beats r i j = true)
    (h2 : beats r j k = true) : beats r i k = true := by
  cases hg1 : vgtStrict (r i) (r j) with
  | true =>
    cases hg2 : vgtStrict (r j) (r k) with
    | true => simp [beats, vgtStrict_trans _ _ _ hg1 hg2]
    | false =>
      have h2' : vgtStrict (r k) (r j) = false ∧ j < k := by
        unfold beats at h2; rw [hg2] at h2; simpa using h2
      simp [beats, vgtStrict_tie_right _ _ _ hg2 h2'.1 hg1]
  | false =>
    have h1' : vgtStrict (r j) (r i) = false ∧ i < j := by
      unfold beats at h1; rw [hg1] at h1; simpa using h1
    cases hg2 : vgtStrict (r j) (r k) with
    | true => simp [beats, vgtStrict_tie_left _ _ _ hg1 h1'.1 hg2]
    | false =>
      have h2' : vgtStrict (r k) (r j) = false ∧ j < k := by
        unfold beats at h2; rw [hg2] at h2; simpa using h2
      have htie := vgtStrict_tie_trans (r i) (r j) (r k) hg1 h1'.1 hg2 h2'.1
      have hik : i < k := by omega
      simp [beats, htie.1, htie.2, hik]

/-- Bridge between list-filter length over `List.range` and `Finset.card`. -/
theorem filter_range_length (M : ℕ) (p : ℕ → Bool) :
    ((List.range M).filter p).length =
      ((Finset.range M).filter (fun m => p m = true)).card := by
  induction M with
  | zero => simp
  | succ n ih =>
    rw [List.range_succ, List.filter_append, List.length_append, ih, Finset.range_succ,
      Finset.filter_insert]
    cases hp : p n
    · simp [hp]
    · have hnot : n ∉ (Finset.range n).filter (fun m => p m = true) := by simp
      rw [if_pos rfl, Finset.card_insert_of_not_mem hnot]
      simp [hp]

/-- `rankIn` as a `Finset` cardinality. -/
theorem rankIn_eq_card (r : ℕ → Option ℚ) (M m : ℕ) :
    rankIn r M m = ((Finset.range M).filter (fun j => beats r j m = true)).card := by
  rw [rankIn, filter_range_length]

/-- Rank is strictly monotone along the order. -/
theorem rankIn_lt_of_beats (r : ℕ → Option ℚ) (M j m : ℕ) (hj : j < M)
    (hb : beats r j m = true) : rankIn r M j < rankIn r M m := by
  rw [rankIn_eq_card, rankIn_eq_card]
  apply Finset.card_lt_card
  have hsub : (Finset.range M).filter (fun x => beats r x j = true) ⊆
      (Finset.range M).filter (fun x => beats r x m = true) := by
    intro x hx
    simp only [Finset.mem_filter] at hx ⊢
    exact ⟨hx.1, beats_trans r x j m hx.2 hb⟩
  rw [Finset.ssubset_iff_of_subset hsub]
  refine ⟨j, ?_, ?_⟩
  · simp only [Finset.mem_filter, Finset.mem_range]
    exact ⟨hj, hb⟩
  · simp only [Finset.mem_filter, Finset.mem_range, not_and]
    intro _
    rw [beats_irrefl]
    simp

/-- Ranks are below `M`. -/
theorem rankIn_lt_self (r : ℕ → Option ℚ) (M m : ℕ) (hm : m < M) :
    rankIn r M m < M := by
  rw [rankIn_eq_card]
  have hsub : (Finset.range M).filter (fun x => beats r x m = true) ⊆
      (Finset.range M).erase m := by
    intro x hx
    simp only [Finset.mem_filter, Finset.mem_range] at hx
    simp only [Finset.mem_erase, Finset.mem_range]
    refine ⟨?_, hx.1⟩
    intro hxm
    subst hxm
    rw [beats_irrefl] at hx
    exact Bool.false_ne_true hx.2
  calc ((Finset.range M).filter (fun x => beats r x m = true)).card
      ≤ ((Finset.range M).erase m).card := Finset.card_le_card hsub
    _ = M - 1 := by rw [Finset.card_erase_of_mem (Finset.mem_range.mpr hm), Finset.card_range]
    _ < M := by omega

/-- Rank is injective on `range M`. -/
theorem rankIn_injOn (r : ℕ → Option ℚ) (M : ℕ) :
    Set.InjOn (fun m => rankIn r M m) ↑(Finset.range M) := by
  intro j hj m hm heq
  by_contra hne
  simp only [Finset.coe_range, Set.mem_Iio] at hj hm
  rcases beats_total r j m hne with hb | hb
  · have := rankIn_lt_of_beats r M j m hj hb
    simp only at heq
    omega
  · have := rankIn_lt_of_beats r M m j hm hb
    simp only at heq
    omega

/-- Rank is a bijection of `range M` onto itself. -/
theorem rankIn_image (r : ℕ → Option ℚ) (M : ℕ) :
    (Finset.range M).image (fun m => rankIn r M m) = Finset.range M := by
  apply Finset.eq_of_subset_of_card_le
  · intro x hx
    simp only [Finset.mem_image] at hx
    obtain ⟨m, hm, rfl⟩ := hx
    exact Finset.mem_range.mpr (rankIn_lt_self r M m (Finset.mem_range.mp hm))
  · rw [Finset.card_image_of_injOn (rankIn_injOn r M), Finset.card_range]

/-- Every rank below `M` is taken by some column. -/
theorem exists_rankIn (r : ℕ → Option ℚ) (M j : ℕ) (hj : j < M) :
    ∃ m, m < M ∧ rankIn r M m = j := by
  have hmem : j ∈ (Finset.range M).image (fun m => rankIn r M m) := by
    rw [rankIn_image]
    exact Finset.mem_range.mpr hj
  simp only [Finset.mem_image, Finset.mem_range] at hmem
  obtain ⟨m, hm, hrm⟩ := hmem
  exact ⟨m, hm, hrm⟩

/-- Exactly `k` columns have rank below `k` (`torch.topk` keeps exactly `k`
columns per row). -/
theorem card_rank_lt (r : ℕ → Option ℚ) (M k : ℕ) (hk : k ≤ M) :
    ((Finset.range M).filter (fun m => rankIn r M m < k)).card = k := by
  have hinj : Set.InjOn (fun m => rankIn r M m)
      ↑((Finset.range M).filter (fun m => rankIn r M m < k)) :=
    (rankIn_injOn r M).mono (by
      intro x hx
      simp only [Finset.coe_filter, Set.mem_setOf_eq] at hx
      simp only [Finset.coe_range, Set.mem_Iio]
      exact Finset.mem_range.mp hx.1)
  have himg : ((Finset.range M).filter (fun m => rankIn r M m < k)).image
      (fun m => rankIn r M m) = (Finset.range M).filter (fun i => i < k) := by
    ext x
    simp only [Finset.mem_image, Finset.mem_filter, Finset.mem_range]
    constructor
    · rintro ⟨m, ⟨hm, hx⟩, rfl⟩
      exact ⟨rankIn_lt_self r M m hm, hx⟩
    · rintro ⟨hxM, hxk⟩
      obtain ⟨m, hm, hrm⟩ := exists_rankIn r M x hxM
      exact ⟨m, ⟨hm, by rw [hrm]; exact hxk⟩, hrm⟩
  have hfr : (Finset.range M).filter (fun i => i < k) = Finset.range k := by
    ext x
    simp only [Finset.mem_filter, Finset.mem_range]
    omega
  calc ((Finset.range M).filter (fun m => rankIn r M m < k)).card
      = (((Finset.range M).filter (fun m => rankIn r M m < k)).image
          (fun m => rankIn r M m)).card := (Finset.card_image_of_injOn hinj).symm
    _ = ((Finset.range M).filter (fun i => i < k)).card := by rw [himg]
    _ = k := by rw [hfr, Finset.card_range]

/-- `stCountPos` as a `Finset` cardinality. -/
theorem stCountPos_eq_card (row : ℕ → Option ℚ) (M : ℕ) :
    stCountPos row M = ((Finset.range M).filter (fun m => vgtQ (row m) 0 = true)).card := by
  rw [stCountPos, filter_range_length]

/-- A masked-out (`0 * v`) entry is never positive. -/
theorem vgtQ_vzero0 (v : Option ℚ) : vgtQ (vzero0 v) 0 = false := by
  cases v <;> simp [vzero0, vgtQ]

/-- Positive entries of a top-k row sit at selected columns. -/
theorem topk_pos_subset (p2 : ℕ → ℕ → Option ℚ) (M k t : ℕ) :
    (Finset.range M).filter (fun j => vgtQ (stTopKMat p2 M k t j) 0 = true) ⊆
      (Finset.range M).filter (fun j => rankIn (p2 t) M j < k) := by
  intro x hx
  simp only [Finset.mem_filter] at hx ⊢
  refine ⟨hx.1, ?_⟩
  by_contra hns
  have hrow : stTopKMat p2 M k t x = vzero0 (p2 t x) := by
    rw [stTopKMat, if_neg hns]
  rw [hrow, vgtQ_vzero0] at hx
  exact Bool.false_ne_true hx.2

/-- If a top-k row passes the `(row > 0).sum() == k` check, every selected
entry of the row is positive. -/
theorem topk_selected_pos (p2 : ℕ → ℕ → Option ℚ) (M k t : ℕ) (hkM : k ≤ M)
    (hcnt : stCountPos (stTopKMat p2 M k t) M = k) (m : ℕ) (hm : m < M)
    (hsel : rankIn (p2 t) M m < k) : vgtQ (p2 t m) 0 = true := by
  have hposcard : ((Finset.range M).filter
      (fun j => vgtQ (stTopKMat p2 M k t j) 0 = true)).card = k := by
    rw [← stCountPos_eq_card]
    exact hcnt
  have hselcard := card_rank_lt (p2 t) M k hkM
  have heq : (Finset.range M).filter (fun j => vgtQ (stTopKMat p2 M k t j) 0 = true) =
      (Finset.range M).filter (fun j => rankIn (p2 t) M j < k) :=
    Finset.eq_of_subset_of_card_le (topk_pos_subset p2 M k t) (by omega)
  have hmem : m ∈ (Finset.range M).filter (fun j => rankIn (p2 t) M j < k) := by
    simp only [Finset.mem_filter, Finset.mem_range]
    exact ⟨hm, hsel⟩
  rw [← heq] at hmem
  simp only [Finset.mem_filter] at hmem
  have := hmem.2
  rwa [stTopKMat, if_pos hsel] at this

/-- Extract one row's count from the `stRowsOk` check. -/
theorem stRowsOk_count (mat : ℕ → ℕ → Option ℚ) (T M k : ℕ)
    (h : stRowsOk mat T M k = true) (t : ℕ) (ht : t < T) :
    stCountPos (mat t) M = k := by
  rw [stRowsOk, List.all_eq_true] at h
  have := h t (List.mem_range.mpr ht)
  simpa using this

/-- The least-index NaN column of a row has rank 0 (NaN sorts greatest). -/
theorem rankIn_none_zero (r : ℕ → Option ℚ) (M m0 : ℕ) (hnone : r m0 = none)
    (hmin : ∀ j, j < m0 → r j ≠ none) : rankIn r M m0 = 0 := by
  rw [rankIn, List.length_eq_zero]
  rw [List.filter_eq_nil_iff]
  intro j hj
  intro hbeats
  cases hrj : r j with
  | none =>
    have hjm : j < m0 := by
      unfold beats at hbeats
      rw [hrj, hnone] at hbeats
      simp [vgtStrict] at hbeats
      exact hbeats
    exact hmin j hjm hrj
  | some q =>
    unfold beats at hbeats
    rw [hrj, hnone] at hbeats
    simp [vgtStrict] at hbeats

/-- A row holding a NaN entry can never pass the `(row > 0).sum() == k`
check: the least-index NaN is selected but not positive. -/
theorem countPos_ne_of_none (p2 : ℕ → ℕ → Option ℚ) (M k t : ℕ) (hk1 : 1 ≤ k)
    (hkM : k ≤ M) (m : ℕ) (hm : m < M) (hnone : p2 t m = none) :
    stCountPos (stTopKMat p2 M k t) M ≠ k := by
  have hexP : ∃ j, p2 t j = none := ⟨m, hnone⟩
  classical
  set m0 := Nat.find hexP with hm0
  have hm0none : p2 t m0 = none := Nat.find_spec hexP
  have hm0min : ∀ j, j < m0 → p2 t j ≠ none := fun j hj => Nat.find_min hexP hj
  have hm0le : m0 ≤ m := Nat.find_min' hexP hnone
  have hm0M : m0 < M := lt_of_le_of_lt hm0le hm
  have hrank0 : rankIn (p2 t) M m0 = 0 := rankIn_none_zero (p2 t) M m0 hm0none hm0min
  have hsub : (Finset.range M).filter (fun j => vgtQ (stTopKMat p2 M k t j) 0 = true) ⊆
      ((Finset.range M).filter (fun j => rankIn (p2 t) M j < k)).erase m0 := by
    intro x hx
    have hx2 := topk_pos_subset p2 M k t hx
    simp only [Finset.mem_erase]
    refine ⟨?_, hx2⟩
    intro hxm
    subst hxm
    simp only [Finset.mem_filter] at hx hx2
    have hsel : rankIn (p2 t) M m0 < k := hx2.2
    have hentry : stTopKMat p2 M k t m0 = p2 t m0 := by rw [stTopKMat, if_pos hsel]
    have hpos := hx.2
    rw [hentry, hm0none] at hpos
    simp [vgtQ] at hpos
  intro hcnt
  have hposcard : ((Finset.range M).filter
      (fun j => vgtQ (stTopKMat p2 M k t j) 0 = true)).card = k := by
    rw [← stCountPos_eq_card]
    exact hcnt
  have hselcard := card_rank_lt (p2 t) M k hkM
  have hm0sel : m0 ∈ (Finset.range M).filter (fun j => rankIn (p2 t) M j < k) := by
    simp only [Finset.mem_filter, Finset.mem_range]
    exact ⟨hm0M, by omega⟩
  have hcard2 : (((Finset.range M).filter
      (fun j => rankIn (p2 t) M j < k)).erase m0).card = k - 1 := by
    rw [Finset.card_erase_of_mem hm0sel, hselcard]
  have hle := Finset.card_le_card hsub
  omega

/-- C8 (amended): a NaN that survives the clustering-column mask (either
because the mask is disabled, or because its column occurs among the cluster
labels) makes `generate_speaker_timestamps` raise an error: if no earlier
guard fires, the top-k sanity check of line 2041 fails on the NaN row. -/
theorem generate_speaker_timestamps_nan_raises
    (labels : ℕ → ℤ) (preds : ℕ → ℕ → Option ℚ) (T M : ℕ) (θ : ℚ) (moc : ℕ)
    (prm : STParams)
    (h : ∃ t m, t < T ∧ m < M ∧ preds t m = none ∧
      (prm.mask_spks_with_clus = false ∨ stActiveCol labels T m = true)) :
    exceptIsError (generate_speaker_timestamps labels preds T M θ moc prm) = true := by
  obtain ⟨t, m, ht, hm, hnone, hcase⟩ := h
  have hp2 : stMaskedPreds labels preds T prm.mask_spks_with_clus t m = none := by
    rcases hcase with hmask | hact
    · rw [stMaskedPreds, hmask]
      simpa using hnone
    · rw [stMaskedPreds, hact]
      simpa using hnone
  simp only [generate_speaker_timestamps]
  split
  · rfl
  · split
    · rfl
    · rename_i k heq
      split
      · rfl
      · rename_i hMk
        split
        · rfl
        · rename_i hk0
          split
          · rfl
          · rename_i hchk
            exfalso
            have hrows : stRowsOk
                (stTopKMat (stMaskedPreds labels preds T prm.mask_spks_with_clus) M k)
                T M k = true := by
              simpa using hchk
            have hcnt := stRowsOk_count _ T M k hrows t ht
            exact countPos_ne_of_none _ M k t (by omega) (by omega) m hm hp2 hcnt

/-- C8 (amended, witness): the theorem applied at `clus_labels = [0]`,
`msdd_preds = [[nan, 0.9]]` (NaN in the active column 0),
`mask_spks_with_clus=True`. -/
theorem generate_speaker_timestamps_nan_raises_witness :
    exceptIsError (generate_speaker_timestamps c8lab c8wpreds 1 2 (1/2) 2 c8prm) = true :=
  generate_speaker_timestamps_nan_raises c8lab c8wpreds 1 2 (1/2) 2 c8prm
    ⟨0, 0, by decide, by decide, by decide, Or.inr (by decide)⟩

/-- The column reported for rank `j` indeed has rank `j` (and is a valid
column index). -/
theorem idxOfRank_spec (r : ℕ → Option ℚ) (M j : ℕ) (hj : j < M) :
    idxOfRank r M j < M ∧ rankIn r M (idxOfRank r M j) = j := by
  obtain ⟨m, hm, hrm⟩ := exists_rankIn r M j hj
  have hmem : m ∈ (List.range M).filter (fun x => rankIn r M x = j) := by
    rw [List.mem_filter]
    exact ⟨List.mem_range.mpr hm, by simp [hrm]⟩
  have hne : (List.range M).filter (fun x => rankIn r M x = j) ≠ [] :=
    List.ne_nil_of_mem hmem
  have hhead : idxOfRank r M j ∈ (List.range M).filter (fun x => rankIn r M x = j) := by
    rw [idxOfRank]
    cases hl : (List.range M).filter (fun x => rankIn r M x = j) with
    | nil => exact absurd hl hne
    | cons a l2 => simp
  rw [List.mem_filter] at hhead
  refine ⟨List.mem_range.mp hhead.1, by simpa using hhead.2⟩

/-- C1 (amended): for NaN-free `[0,1]`-valued single-channel predictions,
with `mask_spks_with_clus` enabled, `ts_vad_threshold ≤ 0` and in-range
cluster labels, a returned activation matrix equals
`A_top1 OR A_ovl`, where `A_top1[t,m] = 1` iff `m` is the top-1 column of row
`t` and `A_ovl[t,m] = 1` iff the column-masked top-k activation `TopK[t,m]`
is positive and the row's `logit_gap` is `≥ threshold` (the `TopK ≥ θ`
comparison of line 2044 only feeds a dead intermediate). -/
theorem generate_speaker_timestamps_activation_formula
    (labels : ℕ → ℤ) (preds : ℕ → ℕ → Option ℚ) (T M : ℕ) (θ : ℚ) (moc : ℕ)
    (prm : STParams) (A : ℕ → ℕ → Bool)
    (hMask : prm.mask_spks_with_clus = true)
    (hTs : prm.ts_vad_threshold ≤ 0)
    (hLab : ∀ t, t < T → 0 ≤ labels t ∧ labels t < (M : ℤ))
    (hEnt : ∀ t m, t < T → m < M → ∃ q, preds t m = some q ∧ 0 ≤ q ∧ q ≤ 1)
    (hOk : generate_speaker_timestamps labels preds T M θ moc prm = .ok A)
    (t m : ℕ) (ht : t < T) (hm : m < M) :
    A t m = (claimTop1 (stMaskedPreds labels preds T true) M t m ||
      claimOvlAmended labels preds T M (stKOf labels T moc prm)
        prm.overlap_infer_spk_limit θ t m) := by
  have hp2ent : ∀ t' m', t' < T → m' < M →
      ∃ q, stMaskedPreds labels preds T true t' m' = some q ∧ 0 ≤ q ∧ q ≤ 1 := by
    intro t' m' ht' hm'
    rw [stMaskedPreds]
    cases hac : stActiveCol labels T m'
    · exact ⟨0, by simp [hac], le_refl 0, by norm_num⟩
    · simpa [hac] using hEnt t' m' ht' hm'
  simp only [generate_speaker_timestamps, hMask] at hOk
  split at hOk
  · simp at hOk
  · split at hOk
    · simp at hOk
    · rename_i k heq
      have hkval : k = stKOf labels T moc prm := by
        cases hio : prm.infer_overlap
        · rw [hio] at heq
          simp at heq
          simp [stKOf, hio, heq]
        · rw [hio] at heq
          simp at heq
          simp [stKOf, hio, heq]
      split at hOk
      · simp at hOk
      · rename_i hMk
        split at hOk
        · simp at hOk
        · rename_i hk0
          split at hOk
          · simp at hOk
          · rename_i hchk
            have hrows : stRowsOk
                (stTopKMat (stMaskedPreds labels preds T true) M k) T M k = true := by
              simpa using hchk
            split at hOk
            · simp at hOk
            · rename_i hchk1
              have hrows1 : stRowsOk
                  (stTopKMat (stMaskedPreds labels preds T true) M 1) T M 1 = true := by
                simpa using hchk1
              have hA := (Except.ok.injEq _ _).mp hOk
              rw [← hA]
              have hkM : k ≤ M := by omega
              have hk1 : 1 ≤ k := by omega
              have hposk : ∀ m', m' < M →
                  rankIn (stMaskedPreds labels preds T true t) M m' < k →
                  vgtQ (stMaskedPreds labels preds T true t m') 0 = true :=
                fun m' hm' hsel => topk_selected_pos _ M k t hkM
                  (stRowsOk_count _ T M k hrows t ht) m' hm' hsel
              have hpos1 : ∀ m', m' < M →
                  rankIn (stMaskedPreds labels preds T true t) M m' < 1 →
                  vgtQ (stMaskedPreds labels preds T true t m') 0 = true :=
                fun m' hm' hsel => topk_selected_pos _ M 1 t (by omega)
                  (stRowsOk_count _ T M 1 hrows1 t ht) m' hm' hsel
              have hvad : stVad labels t = true := by
                rw [stVad]
                have := (hLab t ht).1
                simp only [decide_eq_true_eq]
                omega
              simp only [hvad, Bool.and_true]
              -- top-1 part
              have hEqA : vgtQ (stTopKMat (stMaskedPreds labels preds T true) M 1 t m) 0 =
                  claimTop1 (stMaskedPreds labels preds T true) M t m := by
                rw [claimTop1]
                rcases Nat.eq_zero_or_pos
                    (rankIn (stMaskedPreds labels preds T true t) M m) with hr0 | hrpos
                · rw [stTopKMat, if_pos (by omega)]
                  rw [hpos1 m hm (by omega), hr0]
                  simp
                · rw [stTopKMat, if_neg (by omega), vgtQ_vzero0]
                  have : (rankIn (stMaskedPreds labels preds T true t) M m == 0) = false := by
                    simp
                    omega
                  rw [this]
              -- the gap is a number
              have hgap : ∃ g, stGap (stMaskedPreds labels preds T true) M k t = some g := by
                rw [stGap]
                by_cases h1k : 1 < k
                · rw [if_pos h1k]
                  obtain ⟨hi0M, hri0⟩ := idxOfRank_spec
                    (stMaskedPreds labels preds T true t) M 0 (by omega)
                  obtain ⟨hi1M, hri1⟩ := idxOfRank_spec
                    (stMaskedPreds labels preds T true t) M 1 (by omega)
                  have hq0 := hposk _ hi0M (by omega)
                  obtain ⟨q1, hq1, _, _⟩ := hp2ent t _ ht hi1M
                  cases hv0 : stMaskedPreds labels preds T true t
                      (idxOfRank (stMaskedPreds labels preds T true t) M 0) with
                  | none => rw [hv0] at hq0; simp [vgtQ] at hq0
                  | some q0 =>
                    rw [hv0] at hq0
                    simp only [vgtQ, decide_eq_true_eq] at hq0
                    rw [hq1, vdiv]
                    rw [if_neg (by intro hc; rw [hc] at hq0; exact lt_irrefl 0 hq0)]
                    exact ⟨q1 / q0, rfl⟩
                · rw [if_neg h1k]
                  exact ⟨0, rfl⟩
              obtain ⟨g, hgapv⟩ := hgap
              -- the overlap part
              have hEqB : vtruthy
                  (if vltQ (stGap (stMaskedPreds labels preds T true) M k t) θ then some 0
                   else if vltQ (stSpkTime preds T M m) prm.overlap_infer_spk_limit then some 0
                   else stTopKMat (stMaskedPreds labels preds T true) M k t m) =
                  claimOvlAmended labels preds T M k prm.overlap_infer_spk_limit θ t m := by
                rw [claimOvlAmended, stTopK2Of, stGapOf]
                by_cases hlt : vltQ (stGap (stMaskedPreds labels preds T true) M k t) θ = true
                · rw [if_pos hlt]
                  have hge : vgeQ (stGap (stMaskedPreds labels preds T true) M k t) θ = false := by
                    rw [hgapv] at hlt ⊢
                    simp only [vltQ, decide_eq_true_eq] at hlt
                    simp only [vgeQ, decide_eq_false_iff_not, not_le]
                    exact hlt
                  rw [hge]
                  simp [vtruthy]
                · rw [if_neg hlt]
                  have hge : vgeQ (stGap (stMaskedPreds labels preds T true) M k t) θ = true := by
                    rw [hgapv] at hlt ⊢
                    simp only [vltQ, decide_eq_true_eq, not_lt] at hlt
                    simp only [vgeQ, decide_eq_true_eq]
                    exact hlt
                  rw [hge, Bool.and_true]
                  by_cases hcol : vltQ (stSpkTime preds T M m) prm.overlap_infer_spk_limit = true
                  · rw [if_pos hcol]
                    simp [vtruthy, vgtQ]
                  · rw [if_neg hcol]
                    by_cases hsel : rankIn (stMaskedPreds labels preds T true t) M m < k
                    · rw [stTopKMat, if_pos hsel]
                      have hq := hposk m hm hsel
                      cases hv : stMaskedPreds labels preds T true t m with
                      | none => rw [hv] at hq; simp [vgtQ] at hq
                      | some q =>
                        rw [hv] at hq
                        simp only [vgtQ, decide_eq_true_eq] at hq
                        simp [vtruthy, vgtQ, hq, ne_of_gt hq]
                    · rw [stTopKMat, if_neg hsel, vgtQ_vzero0]
                      obtain ⟨q, hq, _, _⟩ := hp2ent t m ht hm
                      rw [hq]
                      simp [vtruthy, vzero0]
              rw [← hkval]
              rw [hEqA, hEqB]

/-- C1 (witness): the activation formula applied at `clus_labels = [0, 1]`,
`msdd_preds = [[0.9, 0.48], [0.9, 0.48]]`, `threshold = 0.5`, at `(t, m) =
(0, 1)`. -/
theorem generate_speaker_timestamps_activation_formula_witness :
    c1A 0 1 = (claimTop1 (stMaskedPreds c1lab c1preds 2 true) 2 0 1 ||
      claimOvlAmended c1lab c1preds 2 2 (stKOf c1lab 2 2 c1prm)
        c1prm.overlap_infer_spk_limit (1/2) 0 1) :=
  generate_speaker_timestamps_activation_formula c1lab c1preds 2 2 (1/2) 2 c1prm c1A
    rfl (by norm_num [c1prm]) (by decide)
    (by
      intro t m ht hm
      interval_cases t <;> interval_cases m <;>
      exact ⟨_, rfl, by norm_num, by norm_num⟩)
    rfl 0 1 (by decide) (by decide)
